import Mathlib

/-!
Shallow embedding of the span-annotation core of the repository
(`src/anotaciones/annotate_doccano_v2.py` and
`src/anotaciones/annotate_doccano_v2 copy.py`), together with theorems
settling the specification claims about it.

Modelling conventions:
* Python strings are modelled as `List Char` (`Str`); character indices are
  list indices, matching Python's per-codepoint indexing.
* Python's Unicode-table-driven pieces (`str.lower`, `unicodedata.normalize`,
  combining-mark detection, the `\s` and `\w` character classes) are modelled
  restricted to the character set the program actually manipulates: ASCII plus
  the special characters `clean_text` handles (BOM, zero-width space,
  non-breaking space, curly quotes, em dash).  On that set, NFKC/NFKD change
  only U+00A0 (to a plain space), lower-casing is the ASCII map, and the
  combining-mark range is U+0300–U+036F.
* The regular expressions of the source are compiled by hand into explicit
  matchers that follow Python `re` semantics (leftmost scan,
  alternation order, greediness) for the restricted pattern shapes the
  program builds.
* `difflib.SequenceMatcher.ratio` (the in-repository fallback similarity,
  `fuzzy_similarity`) is computed in exact rational arithmetic; scores of the
  claims' inputs are far from the 88 threshold, so float rounding is moot.
* Spans are `Int × Int` because `str.find` can in principle return `-1`
  and the code uses the result unconditionally.
-/

abbrev Str := List Char

/-- Python's `\s` class (and `str.strip` whitespace), restricted to the
modelled character set. -/
def isSpaceChar (c : Char) : Bool :=
  c = ' ' || c = '\t' || c = '\n' || c = '\r' || c = '\x0b' || c = '\x0c'

/-- Python's `\w` class restricted to the modelled character set:
ASCII letters, digits and underscore. -/
def isWordChar (c : Char) : Bool :=
  ('a' ≤ c && c ≤ 'z') || ('A' ≤ c && c ≤ 'Z') || ('0' ≤ c && c ≤ '9') || c = '_'

/-- `str.lower` on one character (ASCII case map; the modelled character set
contains no other cased characters). -/
def lowerChar (c : Char) : Char :=
  if 65 ≤ c.toNat ∧ c.toNat ≤ 90 then Char.ofNat (c.toNat + 32) else c

/-- `str.lower` on a string. -/
def lowerStr (s : Str) : Str := s.map lowerChar

/-- The fixed suffix list of `lightweight_lemma`, in source order. -/
def lemmaSuffixes : List Str :=
  ["ing", "ed", "es", "s", "ion", "ation", "ment", "ability", "ization"].map String.toList

/-- The suffix-stripping step of `lightweight_lemma` on an already
lower-cased word: the first suffix `suf` of the fixed list with
`w.endswith(suf) and len(w) > len(suf)+2` is stripped; otherwise the word is
returned unchanged. -/
def lemmaCore (w : Str) : Str :=
  match lemmaSuffixes.find? (fun suf => suf.isSuffixOf w && decide (suf.length + 2 < w.length)) with
  | some suf => w.take (w.length - suf.length)
  | none => w

/-- `lightweight_lemma` of both source files: lower-case, then strip at most
one suffix from the fixed list. -/
def lightweight_lemma (word : Str) : Str := lemmaCore (lowerStr word)

/-- `text.replace(c, '')` for a single character. -/
def removeChar (bad : Char) (l : Str) : Str := l.filter (fun c => c ≠ bad)

/-- `text.replace(a, b)` for single characters. -/
def mapChar (a b : Char) (l : Str) : Str := l.map (fun c => if c = a then b else c)

/-- `unicodedata.normalize('NFKC', ·)` restricted to the modelled character
set: of the characters `clean_text` can see at this point, only U+00A0 is
changed by NFKC (to U+0020); ASCII, curly quotes and the em dash are
NFKC-invariant. -/
def nfkcChar (c : Char) : Char := if c = '\u00A0' then ' ' else c

/-- `re.sub(r'\s*-\s*', '-', ·)`: every hyphen, together with all adjacent
whitespace, is replaced by a bare hyphen; following `re.sub`'s leftmost scan. -/
def hyphenSub (l : Str) : Str :=
  let sp := l.takeWhile isSpaceChar
  match h : l.dropWhile isSpaceChar with
  | [] => sp
  | '-' :: r2 => '-' :: hyphenSub (r2.dropWhile isSpaceChar)
  | c :: r2 => sp ++ c :: hyphenSub r2
termination_by l.length
decreasing_by
  · have h2 : l.length = (l.takeWhile isSpaceChar).length + (l.dropWhile isSpaceChar).length := by
      rw [← List.length_append, List.takeWhile_append_dropWhile]
    rw [h] at h2
    have h3 : (r2.dropWhile isSpaceChar).length ≤ r2.length :=
      (List.dropWhile_sublist (l := r2) isSpaceChar).length_le
    simp at h2
    omega
  · have h2 : l.length = (l.takeWhile isSpaceChar).length + (l.dropWhile isSpaceChar).length := by
      rw [← List.length_append, List.takeWhile_append_dropWhile]
    rw [h] at h2
    simp at h2
    omega

/-- `re.sub(r'\s+', ' ', ·)`: every maximal whitespace run becomes one space. -/
def wsCollapse : Str → Str
  | [] => []
  | c :: rest =>
    if isSpaceChar c then ' ' :: wsCollapse (rest.dropWhile isSpaceChar)
    else c :: wsCollapse rest
termination_by l => l.length
decreasing_by
  · have := (List.dropWhile_sublist (l := rest) isSpaceChar).length_le
    simp
    omega
  · simp

/-- `str.strip()`. -/
def stripEnds (l : Str) : Str :=
  ((l.dropWhile isSpaceChar).reverse.dropWhile isSpaceChar).reverse

/-- The character-replacement prefix of `clean_text`: BOM and zero-width
space removal, U+00A0 to space, NFKC, curly quotes to straight quotes, em
dash to hyphen — the stages before the two regex substitutions. -/
def cleanSpecials (text : Str) : Str :=
  mapChar '—' '-' (mapChar '”' '"' (mapChar '“' '"'
    ((mapChar '\u00A0' ' ' (removeChar '\u200B' (removeChar '\uFEFF' text))).map nfkcChar)))

/-- `clean_text` (identical in both source files): drop BOM and zero-width
spaces, map U+00A0 to space, NFKC, straighten curly quotes, em dash to hyphen,
remove whitespace around hyphens, collapse whitespace runs, strip. -/
def clean_text (text : Str) : Str :=
  stripEnds (wsCollapse (hyphenSub (cleanSpecials text)))

/-- `unicodedata.normalize('NFKD', ·)` restricted to the modelled character
set (only U+00A0 decomposes, to a space; accented letters are outside the
modelled set). -/
def nfkdChar (c : Char) : Char := if c = '\u00A0' then ' ' else c

/-- `unicodedata.combining(c) != 0`, restricted to the modelled character set
plus the basic combining-diacritics block. -/
def isCombiningMark (c : Char) : Bool := 0x300 ≤ c.toNat && c.toNat ≤ 0x36F

/-- `normalize_text_for_matching` of `annotate_doccano_v2.py`: NFKD, then
`’` to `'`, drop combining marks, lower-case. -/
def normalize_for_matching_v2 (t : Str) : Str :=
  lowerStr ((mapChar '’' '\'' (t.map nfkdChar)).filter (fun c => !isCombiningMark c))

/-- `normalize_text_for_matching` of the copy: NFKD, drop combining marks,
lower-case (no quote replacement). -/
def normalize_for_matching_copy (t : Str) : Str :=
  lowerStr ((t.map nfkdChar).filter (fun c => !isCombiningMark c))

/-- Length of the longest common run at the heads of two strings. -/
def commonRun : Str → Str → Nat
  | a :: as, b :: bs => if a = b then commonRun as bs + 1 else 0
  | _, _ => 0

/-- `difflib.SequenceMatcher.find_longest_match` over the full ranges:
among all blocks `(i, j, k)` with `a[i:i+k] == b[j:j+k]` and `k` maximal,
the one starting earliest in `a`, then earliest in `b` (no junk: the inputs
here are far below the 200-character autojunk threshold). -/
def bestBlock (a b : Str) : Nat × Nat × Nat :=
  ((List.range a.length).flatMap
      (fun i => (List.range b.length).map
        (fun j => (i, j, commonRun (a.drop i) (b.drop j))))).foldl
    (fun best c => if best.2.2 < c.2.2 then c else best) (0, 0, 0)

/-- Total size of the `SequenceMatcher` matching blocks: recursively take the
longest match and recurse on both sides.  The fuel bounds the recursion depth;
every recursive call strictly shortens the first string, so
`a.length + 1` fuel always suffices. -/
def matchTotalAux : Nat → Str → Str → Nat
  | 0, _, _ => 0
  | fuel + 1, a, b =>
    let ijk := bestBlock a b
    if ijk.2.2 = 0 then 0
    else
      matchTotalAux fuel (a.take ijk.1) (b.take ijk.2.1) + ijk.2.2 +
        matchTotalAux fuel (a.drop (ijk.1 + ijk.2.2)) (b.drop (ijk.2.1 + ijk.2.2))

def matchTotal (a b : Str) : Nat := matchTotalAux (a.length + 1) a b

/-- `fuzzy_similarity` of the source (the `difflib` fallback branch):
`SequenceMatcher(None, a, b).ratio() * 100`, in exact rational arithmetic:
`2.0 * matches / (len(a) + len(b)) * 100` is the rational
`200 * matches / total`.  `difflib._calculate_ratio` returns 1.0 when both
strings are empty. -/
def fuzzy_similarity (a b : Str) : ℚ :=
  let total := a.length + b.length
  if total = 0 then 100 else mkRat (100 * (2 * (matchTotal a b : Int))) total

/-- `hay.find(pat)` from position `i` (Python `str.find` semantics:
index of the leftmost occurrence, `-1` if absent). -/
def findFrom (pat : Str) : Str → Nat → Int
  | [], i => if pat.isPrefixOf ([] : Str) then (i : Int) else -1
  | hay@(_ :: t), i => if pat.isPrefixOf hay then (i : Int) else findFrom pat t (i + 1)

/-- Python `hay.find(pat)`. -/
def pyFind (hay pat : Str) : Int := findFrom pat hay 0

/-- The `[\w\-]` class of the token regexes. -/
def isTokenChar (c : Char) : Bool := isWordChar c || c = '-'

def dropTrailing (p : Char → Bool) (l : Str) : Str := (l.reverse.dropWhile p).reverse

/-- Trim a maximal `[\w\-]` run to the segment between its first and last
word characters — the portion `\b[\w\-]+\b` actually matches (leading and
trailing hyphens cannot satisfy the word boundaries). -/
def trimRun (run : Str) : Str :=
  dropTrailing (fun c => !isWordChar c) (run.dropWhile (fun c => !isWordChar c))

/-- Dropping a prefix of `t` leaves fewer than `(c :: t).length` characters. -/
theorem length_dropWhile_lt_cons (p : Char → Bool) (c : Char) (t : Str) :
    (t.dropWhile p).length < (c :: t).length := by
  have := (List.dropWhile_sublist (l := t) p).length_le
  simp
  omega

/-- Maximal runs of `[\w\-]` characters, left to right; `cur` is the run
being collected. -/
def splitRunsAux : Str → Str → List Str
  | cur, [] => if cur.isEmpty then [] else [cur]
  | cur, c :: t =>
    if isTokenChar c then splitRunsAux (cur ++ [c]) t
    else if cur.isEmpty then splitRunsAux [] t
    else cur :: splitRunsAux [] t

def splitRuns (l : Str) : List Str := splitRunsAux [] l

/-- `re.findall(r"\b[\w\-]+\b", text)` (with `minLen = 1`), and the copy's
`re.findall(r"\b[\w\-]{3,}\b", text)` (with `minLen = 3`): each maximal
`[\w\-]` run, trimmed to its outermost word characters, kept when the trimmed
match is long enough. -/
def findallWords (minLen : Nat) (text : Str) : List Str :=
  ((splitRuns text).map trimRun).filter (fun w => !w.isEmpty && decide (minLen ≤ w.length))

/-- `list(dict.fromkeys(words))`: deduplicate keeping first occurrences. -/
def dedupFirst : List Str → List Str → List Str
  | [], _ => []
  | w :: t, seen => if w ∈ seen then dedupFirst t seen else w :: dedupFirst t (w :: seen)

/-- `str.split()`: split on whitespace runs, dropping empty pieces; `cur` is
the word being collected. -/
def splitWsAux : Str → Str → List Str
  | cur, [] => if cur.isEmpty then [] else [cur]
  | cur, c :: t =>
    if isSpaceChar c then (if cur.isEmpty then splitWsAux [] t else cur :: splitWsAux [] t)
    else splitWsAux (cur ++ [c]) t

def splitWs (l : Str) : List Str := splitWsAux [] l
/-- The compiled pattern of `build_flexible_pattern` in
`annotate_doccano_v2.py`: the term's whitespace-split words, each
lemmatized (and `re.escape`d, which is moot for literal matching), joined by
`\s+`; terms of length at least 6 additionally tolerate one appended suffix. -/
structure PatternV2 where
  lemmaWords : List Str
  allowSuffix : Bool

/-- `build_flexible_pattern` of `annotate_doccano_v2.py`. -/
def build_flexible_pattern_v2 (term : Str) : PatternV2 :=
  { lemmaWords := (splitWs term).map lightweight_lemma
    allowSuffix := decide (6 ≤ term.length) }

/-- The compiled pattern of the first (active) `build_flexible_pattern` of
the copy: alternation of the raw term and its lemma, with suffix tolerance
unless the lower-cased term is on the generic-exclusion list. -/
structure PatternCopy where
  base : Str
  lem : Str
  allowSuffix : Bool

def EXCLUDE_SUFFIX_TERMS : List Str :=
  ["note", "text", "data", "info", "section"].map String.toList

/-- The first `build_flexible_pattern` of the copy — the one in effect when
`PRECOMPILED` is built (the later redefinition happens only after the
precompilation loop has already run). -/
def build_flexible_pattern_copy (term : Str) : PatternCopy :=
  { base := term
    lem := lightweight_lemma term
    allowSuffix := !(EXCLUDE_SUFFIX_TERMS.contains (lowerStr term)) }

/-- Case-insensitive literal prefix test (`re.IGNORECASE`). -/
def ciStartsWith : Str → Str → Bool
  | [], _ => true
  | _ :: _, [] => false
  | p :: ps, r :: rs => lowerChar p == lowerChar r && ciStartsWith ps rs

/-- The suffix alternation `(?:s|es|ing|ed|ion|ation|ment|ability|ization)?`,
in source order (the backtracking order of the alternatives). -/
def sufAlternatives : List Str :=
  ["s", "es", "ing", "ed", "ion", "ation", "ment", "ability", "ization"].map String.toList

/-- The `(?!\w)` lookahead at the given rest of the text. -/
def boundaryAfter : Str → Bool
  | [] => true
  | c :: _ => !isWordChar c

/-- Match the optional suffix followed by the `(?!\w)` lookahead, trying the
alternatives in order and the empty suffix last (regex backtracking order);
returns the consumed length. -/
def trySuffixBoundary (allow : Bool) (rest : Str) : Option Nat :=
  if allow then
    match sufAlternatives.find?
        (fun suf => ciStartsWith suf rest && boundaryAfter (rest.drop suf.length)) with
    | some suf => some suf.length
    | none => if boundaryAfter rest then some 0 else none
  else if boundaryAfter rest then some 0 else none

/-- Match the lemmatized words joined by `\s+` at the head of `rest`
(the words contain no whitespace, so greedy whitespace runs are exact);
returns the consumed length. -/
def matchWordsV2 : List Str → Str → Option Nat
  | [], _ => some 0
  | [w], rest => if ciStartsWith w rest then some w.length else none
  | w :: ws, rest =>
    if ciStartsWith w rest then
      let rest1 := rest.drop w.length
      let sp := (rest1.takeWhile isSpaceChar).length
      if sp = 0 then none
      else (matchWordsV2 ws (rest1.drop sp)).map (fun L => w.length + sp + L)
    else none

/-- The `(?<!\w)` lookbehind at position `i`. -/
def prevBoundary (text : Str) (i : Nat) : Bool :=
  match i with
  | 0 => true
  | j + 1 =>
    match text[j]? with
    | some c => !isWordChar c
    | none => true

/-- Attempt the v2 pattern at position `i` of the text; returns the match
length. -/
def matchAtV2 (pat : PatternV2) (text : Str) (i : Nat) : Option Nat :=
  if prevBoundary text i then
    match matchWordsV2 pat.lemmaWords (text.drop i) with
    | some L => (trySuffixBoundary pat.allowSuffix ((text.drop i).drop L)).map (fun s => L + s)
    | none => none
  else none

/-- Attempt one alternative of the copy pattern. -/
def tryAltCopy (allow : Bool) (alt rest : Str) : Option Nat :=
  if ciStartsWith alt rest then
    (trySuffixBoundary allow (rest.drop alt.length)).map (fun s => alt.length + s)
  else none

/-- Attempt the copy pattern at position `i`: the `(base|lemma)` alternatives
in order, each with the suffix alternation, under both boundary lookarounds. -/
def matchAtCopy (pat : PatternCopy) (text : Str) (i : Nat) : Option Nat :=
  if prevBoundary text i then
    match tryAltCopy pat.allowSuffix pat.base (text.drop i) with
    | some L => some L
    | none => tryAltCopy pat.allowSuffix pat.lem (text.drop i)
  else none

/-- `pattern.finditer(text)` span list: scan positions `0..n` left to right,
restart after each match (one position further for a zero-width match).  The
fuel only bounds the iteration count; every step advances the position by at
least one, so the initial fuel `n + 2` covers every position up to the
`i ≤ n` stop test. -/
def finditerAux (mAt : Nat → Option Nat) (n : Nat) : Nat → Nat → List (Nat × Nat)
  | 0, _ => []
  | fuel + 1, i =>
    if i ≤ n then
      match mAt i with
      | some L => (i, i + L) :: finditerAux mAt n fuel (if L = 0 then i + 1 else i + L)
      | none => finditerAux mAt n fuel (i + 1)
    else []

def finditerV2 (pat : PatternV2) (text : Str) : List (Nat × Nat) :=
  finditerAux (matchAtV2 pat text) text.length (text.length + 2) 0

def finditerCopy (pat : PatternCopy) (text : Str) : List (Nat × Nat) :=
  finditerAux (matchAtCopy pat text) text.length (text.length + 2) 0

/-- `text[s:e]` for `0 ≤ s ≤ e`. -/
def sliceStr (text : Str) (s e : Nat) : Str := (text.drop s).take (e - s)

/-- The occupied-interval test of both files, verbatim:
`any(s <= span[0] < e or s < span[1] <= e for s, e in used_spans)`. -/
def overlapsUsed (used : List (Int × Int)) (a b : Int) : Bool :=
  used.any (fun se => (se.1 ≤ a && a < se.2) || (se.1 < b && b ≤ se.2))
/-- One span triple of the output `label` list. -/
abbrev LabelSpan := Int × Int × String

/-- The exact pass of `annotate_text` in `annotate_doccano_v2.py` for one
term: walk the `finditer` matches; skip a match whose interval trips the
occupied-interval test; accept it when the matched surface equals the term
case-insensitively (`matched_word.lower() == original_term.lower()`).
Returns the accepted spans in order, the grown occupied set, and
`matched_here`. -/
def exactPassV2 (text term : Str) : List (Nat × Nat) → List (Int × Int) →
    List (Nat × Nat) × List (Int × Int) × Bool
  | [], used => ([], used, false)
  | (s, e) :: rest, used =>
    if overlapsUsed used (s : Int) (e : Int) then exactPassV2 text term rest used
    else if lowerStr (sliceStr text s e) == lowerStr term then
      let out := exactPassV2 text term rest (used ++ [((s : Int), (e : Int))])
      ((s, e) :: out.1, out.2.1, true)
    else exactPassV2 text term rest used

/-- The exact pass of the copy for one term: identical to v2 except the
acceptance test, which compares lemmas
(`lightweight_lemma(match.group(0)) == lightweight_lemma(original_term)`). -/
def exactPassCopy (text term : Str) : List (Nat × Nat) → List (Int × Int) →
    List (Nat × Nat) × List (Int × Int) × Bool
  | [], used => ([], used, false)
  | (s, e) :: rest, used =>
    if overlapsUsed used (s : Int) (e : Int) then exactPassCopy text term rest used
    else if lightweight_lemma (sliceStr text s e) == lightweight_lemma term then
      let out := exactPassCopy text term rest (used ++ [((s : Int), (e : Int))])
      ((s, e) :: out.1, out.2.1, true)
    else exactPassCopy text term rest used

/-- The fuzzy pass of `annotate_doccano_v2.py` for one term: walk the unique
word pool; skip words shorter than `MIN_FUZZY_LEN = 6`; locate the word by
`text.lower().find(w.lower())`; skip on the occupied-interval test; skip words
whose lemma equals the target's lemma; accept the first word scoring `>= 88`
and stop.  Returns the accepted spans (at most one, by the `break`) and the
grown occupied set. -/
def fuzzyPassV2 (text target lemmaTarget : Str) :
    List Str → List (Int × Int) → List (Int × Int) × List (Int × Int)
  | [], used => ([], used)
  | w :: rest, used =>
    let wn := normalize_for_matching_v2 w
    if w.length < 6 then fuzzyPassV2 text target lemmaTarget rest used
    else
      let idx := pyFind (lowerStr text) (lowerStr w)
      let b := idx + (w.length : Int)
      if overlapsUsed used idx b then fuzzyPassV2 text target lemmaTarget rest used
      else if lightweight_lemma wn == lemmaTarget then fuzzyPassV2 text target lemmaTarget rest used
      else if 88 ≤ fuzzy_similarity wn target then ([(idx, b)], used ++ [(idx, b)])
      else fuzzyPassV2 text target lemmaTarget rest used

/-- The fuzzy pass of the copy for one term: skip normalized words shorter
than 3 or with the target's lemma; on a score `>= 88`, find the word in the
text: a failed find breaks without appending, an occupied interval `continue`s
to the next word, and otherwise the span is appended and the loop breaks. -/
def fuzzyPassCopy (text target lemmaTarget : Str) :
    List Str → List (Int × Int) → List (Int × Int) × List (Int × Int)
  | [], used => ([], used)
  | w :: rest, used =>
    let wn := normalize_for_matching_copy w
    if wn.length < 3 then fuzzyPassCopy text target lemmaTarget rest used
    else if lightweight_lemma wn == lemmaTarget then fuzzyPassCopy text target lemmaTarget rest used
    else if 88 ≤ fuzzy_similarity wn target then
      let idx := pyFind (lowerStr text) (lowerStr w)
      if idx = -1 then ([], used)
      else
        let b := idx + (w.length : Int)
        if overlapsUsed used idx b then fuzzyPassCopy text target lemmaTarget rest used
        else ([(idx, b)], used ++ [(idx, b)])
    else fuzzyPassCopy text target lemmaTarget rest used

/-- Processing of one `(category, term)` pair in `annotate_doccano_v2.py`:
exact pass over the `finditer` matches, then — only when no exact span was
accepted and the term is at least `MIN_FUZZY_LEN = 6` long — the fuzzy pass. -/
def processTermV2 (text : Str) (wordsU : List Str)
    (st : List LabelSpan × List (Int × Int)) (cat : String) (term : Str) :
    List LabelSpan × List (Int × Int) :=
  let pat := build_flexible_pattern_v2 term
  let ex := exactPassV2 text term (finditerV2 pat text) st.2
  let labels1 := st.1 ++ ex.1.map (fun se => ((se.1 : Int), (se.2 : Int), cat))
  if !ex.2.2 && decide (6 ≤ term.length) then
    let target := normalize_for_matching_v2 term
    let fz := fuzzyPassV2 text target (lightweight_lemma target) wordsU ex.2.1
    (labels1 ++ fz.1.map (fun ab => (ab.1, ab.2, cat)), fz.2)
  else (labels1, ex.2.1)

/-- Processing of one `(category, term)` pair in the copy: exact pass, then
the fuzzy pass whenever no exact span was accepted (no term-length gate). -/
def processTermCopy (text : Str) (wordsU : List Str)
    (st : List LabelSpan × List (Int × Int)) (cat : String) (term : Str) :
    List LabelSpan × List (Int × Int) :=
  let pat := build_flexible_pattern_copy term
  let ex := exactPassCopy text term (finditerCopy pat text) st.2
  let labels1 := st.1 ++ ex.1.map (fun se => ((se.1 : Int), (se.2 : Int), cat))
  if !ex.2.2 then
    let target := normalize_for_matching_copy term
    let fz := fuzzyPassCopy text target (lightweight_lemma target) wordsU ex.2.1
    (labels1 ++ fz.1.map (fun ab => (ab.1, ab.2, cat)), fz.2)
  else (labels1, ex.2.1)

/-- Stable insertion step for sorting by length, longest first: `x` goes in
front of the first element no longer than it, so earlier-listed terms precede
equally long later ones — the order of Python's stable
`sorted(key=len, reverse=True)`. -/
def insertByLen (x : Str) : List Str → List Str
  | [] => [x]
  | y :: t => if y.length ≤ x.length then x :: y :: t else y :: insertByLen x t

/-- Python's `sorted(terms, key=lambda x: len(x), reverse=True)`. -/
def sortByLenDesc : List Str → List Str
  | [] => []
  | x :: t => insertByLen x (sortByLenDesc t)

/-- The `PRECOMPILED` term order of `annotate_doccano_v2.py`: terms of length
at least `MIN_TERM_LEN = 2`, longest first (Python's stable sort). -/
def precompiledTermsV2 (terms : List Str) : List Str :=
  sortByLenDesc (terms.filter (fun t => decide (2 ≤ t.length)))

/-- The `PRECOMPILED` term order of the copy: all terms, longest first. -/
def precompiledTermsCopy (terms : List Str) : List Str :=
  sortByLenDesc terms

/-- `annotate_text` of `annotate_doccano_v2.py` (the dictionary passed
explicitly in place of the module-level `CATEGORIES`): returns the `label`
list of `[start, end, category]` spans in acceptance order. -/
def annotate_text_v2 (cats : List (String × List Str)) (text : Str) : List LabelSpan :=
  let wordsU := dedupFirst (findallWords 1 text) []
  (cats.foldl
    (fun st ct =>
      (precompiledTermsV2 ct.2).foldl (fun st2 term => processTermV2 text wordsU st2 ct.1 term) st)
    ([], [])).1

/-- `annotate_text` of the copy, likewise. -/
def annotate_text_copy (cats : List (String × List Str)) (text : Str) : List LabelSpan :=
  let wordsU := dedupFirst (findallWords 3 text) []
  (cats.foldl
    (fun st ct =>
      (precompiledTermsCopy ct.2).foldl (fun st2 term => processTermCopy text wordsU st2 ct.1 term) st)
    ([], [])).1
/-! Invariants used to prove `clean_text` idempotent. -/

/-- The characters eliminated by `cleanSpecials`. -/
def badChar (c : Char) : Bool :=
  c = '\uFEFF' || c = '\u200B' || c = '\u00A0' || c = '“' || c = '”' || c = '—'

/-- An adjacent-pair condition scanned along a string. -/
def chainPairs (p : Char → Char → Bool) : Str → Bool
  | [] => true
  | [_] => true
  | a :: b :: t => p a b && chainPairs p (b :: t)

/-- No whitespace character adjacent to a hyphen (in either order). -/
def noSpHyPair (a b : Char) : Bool :=
  !((isSpaceChar a && b = '-') || (a = '-' && isSpaceChar b))

/-- Adjacent pairs in the image of `clean_text`: no two adjacent whitespace
characters, and no whitespace adjacent to a hyphen. -/
def cleanPair (a b : Char) : Bool :=
  !(isSpaceChar a && isSpaceChar b) && noSpHyPair a b

/-- Every whitespace character is a plain space. -/
def spacesPlain (l : Str) : Bool := l.all (fun c => !isSpaceChar c || c == ' ')

/-- Neither end of the string is whitespace. -/
def noEdgeSpace (l : Str) : Bool :=
  (match l.head? with | some c => !isSpaceChar c | none => true) &&
  (match l.getLast? with | some c => !isSpaceChar c | none => true)

/-! Concrete inputs used by the claim theorems and witnesses. -/

def exHeartCats : List (String × List Str) :=
  [("A", ["heart".toList]), ("B", ["acute heart failure".toList])]

def exHeartText : Str := "acute heart failure onset".toList

def exFatigue : Str := "fatigue".toList

def exFatigueCats : List (String × List Str) := [("Symptom", [exFatigue])]

def exFatigueText : Str := "Patients reported fatigued states.".toList

def exNote : Str := "note".toList

def exNoteCats : List (String × List Str) := [("Process", [exNote])]

def exNoteText : Str := "See the notes section.".toList

def exClinicalText : Str := "Clinical notes follow.".toList

def exCellText : Str := "the cell divides".toList

def exCell : Str := "cell".toList

def exProcessWord : Str := "process".toList

def exCatWord : Str := "cat".toList

def exRunningWord : Str := "running".toList

/-! Helper lemmas. -/

theorem lowerChar_idem (c : Char) : lowerChar (lowerChar c) = lowerChar c := by
  unfold lowerChar
  split
  · next h =>
    rw [if_neg]
    obtain ⟨h1, h2⟩ := h
    set n := c.toNat with hn
    interval_cases n <;> decide
  · rfl

theorem lowerStr_idem (s : Str) : lowerStr (lowerStr s) = lowerStr s := by
  induction s with
  | nil => rfl
  | cons c t ih => simpa [lowerStr, lowerChar_idem] using ih

/-- The output of `lightweight_lemma` is already lower-cased. -/
theorem lowerStr_lightweight_lemma (w : Str) :
    lowerStr (lightweight_lemma w) = lightweight_lemma w := by
  unfold lightweight_lemma lemmaCore
  cases hf : lemmaSuffixes.find?
      (fun suf => suf.isSuffixOf (lowerStr w) && decide (suf.length + 2 < (lowerStr w).length)) with
  | none => simpa using lowerStr_idem w
  | some suf =>
    show lowerStr ((lowerStr w).take _) = (lowerStr w).take _
    rw [lowerStr, List.map_take, ← lowerStr, lowerStr_idem]
/-- C2, counterexample: `lightweight_lemma` is not idempotent.  For
`"process"`, the first application strips the `"s"` suffix giving
`"proces"`, and a second application strips `"es"` giving `"proc"`. -/
theorem C2_counterexample_process :
    lightweight_lemma (lightweight_lemma exProcessWord) ≠ lightweight_lemma exProcessWord ∧
    lightweight_lemma exProcessWord = "proces".toList ∧
    lightweight_lemma (lightweight_lemma exProcessWord) = "proc".toList := by
  refine ⟨?_, by decide, by decide⟩
  decide

/-- C2 (amended): re-applying `lightweight_lemma` to an already-lemmatized
root returns that root unchanged provided the root does not itself end in a
listed suffix meeting the length guard (`len(w) > len(suf) + 2`); without
that proviso idempotence fails (see the counterexample: the root of
`"process"` is `"proces"`, which the second application strips to
`"proc"`). -/
theorem C2_lemma_idempotent_on_unstrippable_roots (w : Str)
    (h : lemmaSuffixes.find?
      (fun suf => suf.isSuffixOf (lightweight_lemma w) &&
        decide (suf.length + 2 < (lightweight_lemma w).length)) = none) :
    lightweight_lemma (lightweight_lemma w) = lightweight_lemma w := by
  have h1 : lowerStr (lightweight_lemma w) = lightweight_lemma w := lowerStr_lightweight_lemma w
  show lemmaCore (lowerStr (lightweight_lemma w)) = _
  rw [h1]
  unfold lemmaCore
  rw [h]

/-- Witness for C2's amended theorem at the word `"cat"`. -/
theorem C2_lemma_idempotent_witness :
    lemmaSuffixes.find?
      (fun suf => suf.isSuffixOf (lightweight_lemma exCatWord) &&
        decide (suf.length + 2 < (lightweight_lemma exCatWord).length)) = none ∧
    lightweight_lemma (lightweight_lemma exCatWord) = lightweight_lemma exCatWord :=
  ⟨by decide, C2_lemma_idempotent_on_unstrippable_roots exCatWord (by decide)⟩

/-- C10: `lightweight_lemma w` is a prefix of the lower-cased `w`; when a
suffix was actually stripped (the result differs from the lower-cased word),
the remaining root has length at least 3, thanks to the guard
`len(w) > len(suf) + 2`; and the result of a non-empty word is non-empty. -/
theorem C10_lemma_prefix_and_length (w : Str) :
    lightweight_lemma w <+: lowerStr w ∧
    (lightweight_lemma w ≠ lowerStr w → 3 ≤ (lightweight_lemma w).length) ∧
    (w ≠ [] → lightweight_lemma w ≠ []) := by
  cases hf : lemmaSuffixes.find?
      (fun suf => suf.isSuffixOf (lowerStr w) && decide (suf.length + 2 < (lowerStr w).length)) with
  | none =>
    have hdef : lightweight_lemma w = lowerStr w := by
      unfold lightweight_lemma lemmaCore
      rw [hf]
    rw [hdef]
    refine ⟨⟨[], by simp⟩, fun hne => absurd rfl hne, fun hw => ?_⟩
    simpa [lowerStr] using hw
  | some suf =>
    have hdef : lightweight_lemma w = (lowerStr w).take ((lowerStr w).length - suf.length) := by
      unfold lightweight_lemma lemmaCore
      rw [hf]
    have hp := List.find?_some hf
    simp only [Bool.and_eq_true, decide_eq_true_eq] at hp
    obtain ⟨hsuf, hlen⟩ := hp
    have htake : ((lowerStr w).take ((lowerStr w).length - suf.length)).length =
        (lowerStr w).length - suf.length := by
      rw [List.length_take]
      omega
    rw [hdef]
    refine ⟨⟨(lowerStr w).drop ((lowerStr w).length - suf.length), List.take_append_drop ..⟩,
      fun _ => ?_, fun _ => ?_⟩
    · omega
    · intro hnil
      rw [hnil] at htake
      simp at htake
      omega

/-- Witness for C10 at the word `"running"` (whose `"ing"` suffix is
stripped, leaving the 4-character root `"runn"`). -/
theorem C10_witness :
    lightweight_lemma exRunningWord <+: lowerStr exRunningWord ∧
    3 ≤ (lightweight_lemma exRunningWord).length ∧
    lightweight_lemma exRunningWord ≠ [] :=
  ⟨(C10_lemma_prefix_and_length exRunningWord).1,
    (C10_lemma_prefix_and_length exRunningWord).2.1 (by decide),
    (C10_lemma_prefix_and_length exRunningWord).2.2 (by decide)⟩
set_option maxRecDepth 1000000

/-- C1: the occupied-interval test
`any(s <= start < e or s < end <= e for s, e in used_spans)` misses a
candidate that strictly contains an already-accepted span, so `annotate_text`
can return overlapping spans.  With dictionary
`{"A": ["heart"], "B": ["acute heart failure"]}` and text
`"acute heart failure onset"`, both files first accept `(6, 11)` for
`"heart"` and then also accept the containing span `(0, 19)` for
`"acute heart failure"`; the two intervals intersect, refuting the
claimed non-overlap invariant (the code's own comment on `used_spans`,
`evita duplicados y superposiciones`, documents the intent). -/
theorem C1_overlapping_spans_escape_the_check :
    annotate_text_v2 exHeartCats exHeartText = [(6, 11, "A"), (0, 19, "B")] ∧
    annotate_text_copy exHeartCats exHeartText = [(6, 11, "A"), (0, 19, "B")] ∧
    ¬ ((11 : Int) ≤ 0 ∨ (19 : Int) ≤ 6) := by
  refine ⟨by decide, by decide, by decide⟩

/-- C4, counterexample: on dictionary `{"Symptom": ["fatigue"]}` and text
`"Patients reported fatigued states."`, the exact-pass pattern for
`"fatigue"` has no match at all in the text (appending a listed suffix to
`"fatigue"` cannot produce `"fatigued"`, since the `ed` alternative would
require `"fatigueed"`), so the produced span is not accepted via the exact
pass's `-ed` suffix tolerance, refuting the claimed mechanism. -/
theorem C4_counterexample_exact_pass_empty :
    finditerV2 (build_flexible_pattern_v2 exFatigue) exFatigueText = [] ∧
    annotate_text_v2 exFatigueCats exFatigueText = [(18, 26, "Symptom")] := by
  refine ⟨by decide, by decide⟩

/-- C4 (amended): `annotate_text` does return exactly one span `(18, 26)`
covering `"fatigued"` labeled `Symptom` (in both files), but the span is
accepted by the fuzzy pass — `"fatigued"` scores `280/3 ≈ 93.3 ≥ 88`
against `"fatigue"` — while the exact pass yields nothing, because the
pattern's suffix tolerance appends suffixes to the literal lemma
`"fatigue"` and no listed suffix produces `"fatigued"`. -/
theorem C4_amended_span_via_fuzzy_pass :
    annotate_text_v2 exFatigueCats exFatigueText = [(18, 26, "Symptom")] ∧
    annotate_text_copy exFatigueCats exFatigueText = [(18, 26, "Symptom")] ∧
    (fuzzyPassV2 exFatigueText (normalize_for_matching_v2 exFatigue)
      (lightweight_lemma (normalize_for_matching_v2 exFatigue))
      (dedupFirst (findallWords 1 exFatigueText) []) []).1 = [(18, 26)] ∧
    88 ≤ fuzzy_similarity (normalize_for_matching_v2 ("fatigued".toList))
      (normalize_for_matching_v2 exFatigue) := by
  refine ⟨by decide, by decide, by decide, by decide⟩

/-- C5, counterexample: on dictionary `{"Process": ["note"]}` and text
`"See the notes section."`, the copy's `annotate_text` does return a span —
`(8, 13)` covering `"notes"` — refuting the claim that the generic-excluded
term produces no span through any pass. -/
theorem C5_counterexample_span_is_produced :
    annotate_text_copy exNoteCats exNoteText = [(8, 13, "Process")] := by
  decide

/-- C5 (amended): the generic-exclusion list gates only the exact-pass
pattern: the suffix-free pattern for `"note"` indeed has no match in
`"See the notes section."`, but the fuzzy pass — which the exclusion list
does not reach — accepts `"notes"` (score `800/9 ≈ 88.9 ≥ 88`; its lemma
`"not"` differs from the target lemma `"note"`, so the exact-family skip does
not fire), and `annotate_text` returns the single span `(8, 13)` labeled
`Process`. -/
theorem C5_amended_excluded_term_fuzzy_matches :
    finditerCopy (build_flexible_pattern_copy exNote) exNoteText = [] ∧
    annotate_text_copy exNoteCats exNoteText = [(8, 13, "Process")] ∧
    88 ≤ fuzzy_similarity (normalize_for_matching_copy ("notes".toList))
      (normalize_for_matching_copy exNote) ∧
    lightweight_lemma ("notes".toList) ≠ lightweight_lemma exNote := by
  refine ⟨by decide, by decide, by decide, by decide⟩
/-- Every span accepted by the v2 exact pass has the lemma of its matched
surface equal to the term's lemma: v2 accepts only on
`matched_word.lower() == original_term.lower()`, and `lightweight_lemma`
factors through lower-casing. -/
theorem exactPassV2_mem_lemma_eq (text term : Str) (ms : List (Nat × Nat))
    (used : List (Int × Int)) (s e : Nat)
    (hmem : (s, e) ∈ (exactPassV2 text term ms used).1) :
    lightweight_lemma (sliceStr text s e) = lightweight_lemma term := by
  induction ms generalizing used with
  | nil => simp [exactPassV2] at hmem
  | cons se rest ih =>
    obtain ⟨s0, e0⟩ := se
    unfold exactPassV2 at hmem
    split at hmem
    · exact ih _ hmem
    · split at hmem
      · next hb =>
        simp only [List.mem_cons] at hmem
        rcases hmem with heq | hmem
        · obtain ⟨hs, he⟩ := Prod.mk.injEq .. ▸ heq
          subst hs
          subst he
          have hlow : lowerStr (sliceStr text s e) = lowerStr term := by
            simpa using hb
          show lemmaCore (lowerStr (sliceStr text s e)) = lemmaCore (lowerStr term)
          rw [hlow]
        · exact ih _ hmem
      · exact ih _ hmem

/-- Every span accepted by the copy's exact pass has the lemma of its matched
surface equal to the term's lemma: that equality is the copy's acceptance
test itself. -/
theorem exactPassCopy_mem_lemma_eq (text term : Str) (ms : List (Nat × Nat))
    (used : List (Int × Int)) (s e : Nat)
    (hmem : (s, e) ∈ (exactPassCopy text term ms used).1) :
    lightweight_lemma (sliceStr text s e) = lightweight_lemma term := by
  induction ms generalizing used with
  | nil => simp [exactPassCopy] at hmem
  | cons se rest ih =>
    obtain ⟨s0, e0⟩ := se
    unfold exactPassCopy at hmem
    split at hmem
    · exact ih _ hmem
    · split at hmem
      · next hb =>
        simp only [List.mem_cons] at hmem
        rcases hmem with heq | hmem
        · obtain ⟨hs, he⟩ := Prod.mk.injEq .. ▸ heq
          subst hs
          subst he
          simpa using hb
        · exact ih _ hmem
      · exact ih _ hmem

/-- C3: in the exact pass of `annotate_text` (both files), every accepted
span's matched surface has the same `lightweight_lemma` as the dictionary
term itself. -/
theorem C3_exact_pass_lemma_equal :
    (∀ text term ms used s e, (s, e) ∈ (exactPassV2 text term ms used).1 →
      lightweight_lemma (sliceStr text s e) = lightweight_lemma term) ∧
    (∀ text term ms used s e, (s, e) ∈ (exactPassCopy text term ms used).1 →
      lightweight_lemma (sliceStr text s e) = lightweight_lemma term) :=
  ⟨fun text term ms used s e hmem => exactPassV2_mem_lemma_eq text term ms used s e hmem,
   fun text term ms used s e hmem => exactPassCopy_mem_lemma_eq text term ms used s e hmem⟩

/-- Witness for C3: the span `(4, 8)` accepted for `"cell"` in
`"the cell divides"` satisfies the lemma equality. -/
theorem C3_witness :
    (4, 8) ∈ (exactPassV2 exCellText exCell
      (finditerV2 (build_flexible_pattern_v2 exCell) exCellText) []).1 ∧
    lightweight_lemma (sliceStr exCellText 4 8) = lightweight_lemma exCell :=
  ⟨by decide, C3_exact_pass_lemma_equal.1 exCellText exCell
    (finditerV2 (build_flexible_pattern_v2 exCell) exCellText) [] 4 8 (by decide)⟩
/-- The v2 fuzzy pass appends at most one span: the accept branch returns a
singleton without recursing (the loop's `break`). -/
theorem fuzzyPassV2_length_le_one (text target lemmaTarget : Str) (ws : List Str)
    (used : List (Int × Int)) : ((fuzzyPassV2 text target lemmaTarget ws used).1).length ≤ 1 := by
  induction ws generalizing used with
  | nil => simp [fuzzyPassV2]
  | cons w rest ih =>
    unfold fuzzyPassV2
    dsimp only
    split
    · exact ih _
    · split
      · exact ih _
      · split
        · exact ih _
        · split
          · simp
          · exact ih _

/-- The copy's fuzzy pass appends at most one span: both the failed-find
`break` and the accept branch return without recursing. -/
theorem fuzzyPassCopy_length_le_one (text target lemmaTarget : Str) (ws : List Str)
    (used : List (Int × Int)) : ((fuzzyPassCopy text target lemmaTarget ws used).1).length ≤ 1 := by
  induction ws generalizing used with
  | nil => simp [fuzzyPassCopy]
  | cons w rest ih =>
    unfold fuzzyPassCopy
    dsimp only
    split
    · exact ih _
    · split
      · exact ih _
      · split
        · split
          · simp
          · split
            · exact ih _
            · simp
        · exact ih _

/-- C7: for every term, within one invocation, the fuzzy pass of either file
produces at most one span — the first qualifying word is accepted and the
loop stops. -/
theorem C7_fuzzy_pass_at_most_one_span :
    (∀ text target lemmaTarget ws used,
      ((fuzzyPassV2 text target lemmaTarget ws used).1).length ≤ 1) ∧
    (∀ text target lemmaTarget ws used,
      ((fuzzyPassCopy text target lemmaTarget ws used).1).length ≤ 1) :=
  ⟨fuzzyPassV2_length_le_one, fuzzyPassCopy_length_le_one⟩

/-- C8, counterexample: in the copy there is no term-length gate on the fuzzy
pass.  The 4-character term `"note"` (below the claimed fuzzy-eligibility
threshold of 6) yields zero exact-pass spans on `"Clinical notes follow."`
yet `annotate_text` still emits the span `(9, 14)` — necessarily from the
fuzzy pass — refuting the claim for the copy. -/
theorem C8_counterexample_short_term_contributes_fuzzy_span :
    exNote.length < 6 ∧
    (exactPassCopy exClinicalText exNote
      (finditerCopy (build_flexible_pattern_copy exNote) exClinicalText) []).1 = [] ∧
    annotate_text_copy exNoteCats exClinicalText = [(9, 14, "Process")] := by
  refine ⟨by decide, by decide, by decide⟩

/-- C8 (amended): in `annotate_doccano_v2.py` the fuzzy pass runs only when
the exact pass accepted no span for the term and the term is at least
`MIN_FUZZY_LEN = 6` long — any term with an exact span or shorter than 6
contributes nothing beyond its exact spans; in the copy the only gate is
that the exact pass accepted no span (there is no term-length condition, see
the counterexample). -/
theorem C8_amended_fuzzy_pass_gate (text : Str) (wordsU : List Str)
    (st : List LabelSpan × List (Int × Int)) (cat : String) (term : Str) :
    ((exactPassV2 text term (finditerV2 (build_flexible_pattern_v2 term) text) st.2).2.2 = true ∨
        term.length < 6 →
      processTermV2 text wordsU st cat term =
        (st.1 ++ (exactPassV2 text term
            (finditerV2 (build_flexible_pattern_v2 term) text) st.2).1.map
            (fun se => ((se.1 : Int), (se.2 : Int), cat)),
          (exactPassV2 text term (finditerV2 (build_flexible_pattern_v2 term) text) st.2).2.1)) ∧
    ((exactPassCopy text term (finditerCopy (build_flexible_pattern_copy term) text) st.2).2.2 =
        true →
      processTermCopy text wordsU st cat term =
        (st.1 ++ (exactPassCopy text term
            (finditerCopy (build_flexible_pattern_copy term) text) st.2).1.map
            (fun se => ((se.1 : Int), (se.2 : Int), cat)),
          (exactPassCopy text term
            (finditerCopy (build_flexible_pattern_copy term) text) st.2).2.1)) := by
  constructor
  · intro h
    unfold processTermV2
    rcases h with h | h
    · simp [h]
    · have h6 : ¬ (6 ≤ term.length) := by omega
      simp [h6]
  · intro h
    unfold processTermCopy
    simp [h]

/-- Witness for C8's amended theorem: the 4-character term `"cell"` on
`"the cell divides"` gets exactly its exact-pass result, no fuzzy span. -/
theorem C8_amended_witness :
    exCell.length < 6 ∧
    processTermV2 exCellText (dedupFirst (findallWords 1 exCellText) []) ([], []) "X" exCell =
      (([] : List LabelSpan) ++ (exactPassV2 exCellText exCell
          (finditerV2 (build_flexible_pattern_v2 exCell) exCellText) []).1.map
          (fun se => ((se.1 : Int), (se.2 : Int), "X")),
        (exactPassV2 exCellText exCell
          (finditerV2 (build_flexible_pattern_v2 exCell) exCellText) []).2.1) :=
  ⟨by decide,
    (C8_amended_fuzzy_pass_gate exCellText (dedupFirst (findallWords 1 exCellText) [])
      ([], []) "X" exCell).1 (Or.inr (by decide))⟩
/-! Lemmas toward C6 (`clean_text` idempotence). -/

theorem mem_removeChar {c b : Char} {l : Str} (h : c ∈ removeChar b l) : c ∈ l ∧ c ≠ b := by
  unfold removeChar at h
  have := List.of_mem_filter h
  exact ⟨List.mem_of_mem_filter h, by simpa using this⟩

theorem mem_mapChar {c a b : Char} {l : Str} (h : c ∈ mapChar a b l) :
    c = b ∨ (c ∈ l ∧ c ≠ a) := by
  unfold mapChar at h
  obtain ⟨d, hd, hc⟩ := List.mem_map.mp h
  by_cases hda : d = a
  · subst hda
    simp at hc
    exact Or.inl hc.symm
  · rw [if_neg hda] at hc
    subst hc
    exact Or.inr ⟨hd, hda⟩

theorem mem_map_nfkc {c : Char} {l : Str} (h : c ∈ l.map nfkcChar) :
    c = ' ' ∨ (c ∈ l ∧ c ≠ '\u00A0') := by
  obtain ⟨d, hd, hc⟩ := List.mem_map.mp h
  unfold nfkcChar at hc
  by_cases hda : d = '\u00A0'
  · rw [if_pos hda] at hc
    exact Or.inl hc.symm
  · rw [if_neg hda] at hc
    subst hc
    exact Or.inr ⟨hd, hda⟩

/-- The output of `cleanSpecials` contains none of the eliminated characters. -/
theorem cleanSpecials_no_bad (t : Str) : ∀ c ∈ cleanSpecials t, badChar c = false := by
  intro c hc
  unfold cleanSpecials at hc
  rcases mem_mapChar hc with h5 | ⟨hc, hne5⟩
  · subst h5; decide
  rcases mem_mapChar hc with h4 | ⟨hc, hne4⟩
  · subst h4; decide
  rcases mem_mapChar hc with h3 | ⟨hc, hne3⟩
  · subst h3; decide
  rcases mem_map_nfkc hc with h2 | ⟨hc, hne2⟩
  · subst h2; decide
  rcases mem_mapChar hc with h1 | ⟨hc, hne1⟩
  · subst h1; decide
  obtain ⟨hc, hnez⟩ := mem_removeChar hc
  obtain ⟨hc, hnef⟩ := mem_removeChar hc
  simp [badChar, hne5, hne4, hne3, hne2, hne1, hnez, hnef]

theorem map_id_of_mem {l : Str} {f : Char → Char} (h : ∀ c ∈ l, f c = c) : l.map f = l := by
  induction l with
  | nil => rfl
  | cons c t ih =>
    simp only [List.map_cons]
    rw [h c (by simp), ih (fun d hd => h d (by simp [hd]))]

theorem mapChar_id {a b : Char} {l : Str} (h : ∀ c ∈ l, c ≠ a) : mapChar a b l = l := by
  unfold mapChar
  exact map_id_of_mem (fun c hc => if_neg (h c hc))

theorem removeChar_id {b : Char} {l : Str} (h : ∀ c ∈ l, c ≠ b) : removeChar b l = l := by
  unfold removeChar
  rw [List.filter_eq_self.mpr]
  intro c hc
  simpa using h c hc

/-- `cleanSpecials` is the identity on strings free of the eliminated
characters. -/
theorem cleanSpecials_id {l : Str} (h : ∀ c ∈ l, badChar c = false) : cleanSpecials l = l := by
  have hb : ∀ c ∈ l, c ≠ '\uFEFF' ∧ c ≠ '\u200B' ∧ c ≠ '\u00A0' ∧ c ≠ '“' ∧ c ≠ '”' ∧ c ≠ '—' := by
    intro c hc
    have := h c hc
    simp [badChar] at this
    tauto
  unfold cleanSpecials
  rw [removeChar_id (fun c hc => (hb c hc).1)]
  rw [removeChar_id (fun c hc => (hb c hc).2.1)]
  rw [mapChar_id (fun c hc => (hb c hc).2.2.1)]
  rw [show l.map nfkcChar = l from ?hnf]
  rw [mapChar_id (fun c hc => (hb c hc).2.2.2.1)]
  rw [mapChar_id (fun c hc => (hb c hc).2.2.2.2.1)]
  rw [mapChar_id (fun c hc => (hb c hc).2.2.2.2.2)]
  case hnf =>
    refine map_id_of_mem (fun c hc => ?_)
    unfold nfkcChar
    rw [if_neg (hb c hc).2.2.1]
theorem head_dropWhile_false (p : Char → Bool) (l : Str) :
    ∀ c, (l.dropWhile p).head? = some c → p c = false := by
  induction l with
  | nil => intro c h; simp at h
  | cons a t ih =>
    intro c h
    rw [List.dropWhile_cons] at h
    split at h
    · exact ih c h
    · next hp =>
      simp at h
      subst h
      simpa using hp

theorem chainPairs_tail {p : Char → Char → Bool} {a : Char} {t : Str}
    (h : chainPairs p (a :: t) = true) : chainPairs p t = true := by
  cases t with
  | nil => rfl
  | cons b t' =>
    unfold chainPairs at h
    exact (Bool.and_eq_true_iff.mp h).2

theorem chainPairs_head {p : Char → Char → Bool} {a : Char} {t : Str}
    (h : chainPairs p (a :: t) = true) : ∀ b, t.head? = some b → p a b = true := by
  intro b hb
  cases t with
  | nil => simp at hb
  | cons b' t' =>
    simp at hb
    subst hb
    unfold chainPairs at h
    exact (Bool.and_eq_true_iff.mp h).1

theorem chainPairs_cons {p : Char → Char → Bool} {a : Char} {t : Str}
    (ht : chainPairs p t = true) (ha : ∀ b, t.head? = some b → p a b = true) :
    chainPairs p (a :: t) = true := by
  cases t with
  | nil => rfl
  | cons b t' =>
    unfold chainPairs
    exact Bool.and_eq_true_iff.mpr ⟨ha b (by simp), ht⟩

theorem chainPairs_append_right {p : Char → Char → Bool} {xs ys : Str}
    (h : chainPairs p (xs ++ ys) = true) : chainPairs p ys = true := by
  induction xs with
  | nil => simpa using h
  | cons a xs' ih => exact ih (chainPairs_tail (by simpa using h))

theorem chainPairs_append_left {p : Char → Char → Bool} {xs ys : Str}
    (h : chainPairs p (xs ++ ys) = true) : chainPairs p xs = true := by
  induction xs with
  | nil => rfl
  | cons a xs' ih =>
    cases xs' with
    | nil => rfl
    | cons b xs'' =>
      refine chainPairs_cons (ih (chainPairs_tail (by simpa using h))) ?_
      intro b' hb'
      simp at hb'
      subst hb'
      exact chainPairs_head (t := b :: (xs'' ++ ys)) (by simpa using h) b (by simp)

theorem chainPairs_append {p : Char → Char → Bool} {xs ys : Str}
    (hx : chainPairs p xs = true) (hy : chainPairs p ys = true)
    (hmid : ∀ a b, xs.getLast? = some a → ys.head? = some b → p a b = true) :
    chainPairs p (xs ++ ys) = true := by
  induction xs with
  | nil => simpa using hy
  | cons a xs' ih =>
    cases xs' with
    | nil =>
      simp only [List.singleton_append]
      refine chainPairs_cons hy ?_
      intro b hb
      exact hmid a b (by simp) hb
    | cons b xs'' =>
      simp only [List.cons_append]
      refine chainPairs_cons (ih (chainPairs_tail hx) ?_) ?_
      · intro a' b' ha' hb'
        refine hmid a' b' ?_ hb'
        simpa using ha'
      · intro b' hb'
        simp at hb'
        subst hb'
        exact chainPairs_head hx b (by simp)

theorem chainPairs_mono {p q : Char → Char → Bool}
    (hpq : ∀ a b, p a b = true → q a b = true) :
    ∀ {l : Str}, chainPairs p l = true → chainPairs q l = true := by
  intro l
  induction l with
  | nil => intro; rfl
  | cons a t ih =>
    intro h
    exact chainPairs_cons (ih (chainPairs_tail h)) (fun b hb => hpq a b (chainPairs_head h b hb))

/-- A pair of whitespace characters never violates the space-hyphen
condition. -/
theorem noSpHyPair_of_spaces {a b : Char} (ha : isSpaceChar a = true)
    (hb : isSpaceChar b = true) : noSpHyPair a b = true := by
  have ha' : (a = '-') = False := by
    simp only [eq_iff_iff, iff_false]
    intro hh
    subst hh
    simp [isSpaceChar] at ha
  have hb' : (b = '-') = False := by
    simp only [eq_iff_iff, iff_false]
    intro hh
    subst hh
    simp [isSpaceChar] at hb
  simp [noSpHyPair, ha', hb']

theorem chainPairs_of_all_spaces {l : Str} (h : ∀ c ∈ l, isSpaceChar c = true) :
    chainPairs noSpHyPair l = true := by
  induction l with
  | nil => rfl
  | cons a t ih =>
    refine chainPairs_cons (ih (fun c hc => h c (by simp [hc]))) ?_
    intro b hb
    have hbmem : b ∈ t := by
      cases t with
      | nil => simp at hb
      | cons x t' => simp at hb; simp [hb]
    exact noSpHyPair_of_spaces (h a (by simp)) (h b (by simp [hbmem]))
theorem hyphenSub_head_nonspace {z : Str}
    (hz : ∀ c, z.head? = some c → isSpaceChar c = false) :
    ∀ c, (hyphenSub z).head? = some c → isSpaceChar c = false := by
  have htw : z.takeWhile isSpaceChar = [] := by
    cases z with
    | nil => rfl
    | cons a t =>
      have := hz a (by simp)
      simp [List.takeWhile_cons, this]
  have hdw : z.dropWhile isSpaceChar = z := by
    cases z with
    | nil => rfl
    | cons a t =>
      have := hz a (by simp)
      simp [List.dropWhile_cons, this]
  intro c hc
  rw [hyphenSub.eq_def] at hc
  simp only [htw, hdw] at hc
  split at hc
  · simp at hc
  · next heq =>
    simp at hc
    subst hc
    decide
  · next c0 r2 hne heq =>
    simp at hc
    subst hc
    have hzeq : z = c0 :: r2 := by rw [← hdw, heq]
    exact hz c0 (by rw [hzeq]; simp)
/-- `hyphenSub` on a string whose non-space part is empty. -/
theorem hyphenSub_eq_nil {x : Str} (hx : x.dropWhile isSpaceChar = []) :
    hyphenSub x = x.takeWhile isSpaceChar := by
  rw [hyphenSub.eq_def]
  split
  · rfl
  · next heq => rw [hx] at heq; simp at heq
  · next heq => rw [hx] at heq; simp at heq

/-- `hyphenSub` when the leading whitespace run is followed by a hyphen. -/
theorem hyphenSub_eq_hyphen {x : Str} {r2 : Str} (hx : x.dropWhile isSpaceChar = '-' :: r2) :
    hyphenSub x = '-' :: hyphenSub (r2.dropWhile isSpaceChar) := by
  rw [hyphenSub.eq_def]
  split
  · next heq => rw [hx] at heq; simp at heq
  · next heq =>
    rw [hx] at heq
    injection heq with _ h2
    subst h2
    rfl
  · next c0 r0 hne heq =>
    rw [hx] at heq
    injection heq with h1 _
    exact absurd h1.symm hne

/-- `hyphenSub` when the leading whitespace run is followed by a non-hyphen
character. -/
theorem hyphenSub_eq_other {x : Str} {c : Char} {r2 : Str} (hc : (c = '-') → False)
    (hx : x.dropWhile isSpaceChar = c :: r2) :
    hyphenSub x = x.takeWhile isSpaceChar ++ c :: hyphenSub r2 := by
  rw [hyphenSub.eq_def]
  split
  · next heq => rw [hx] at heq; simp at heq
  · next heq =>
    rw [hx] at heq
    injection heq with h1 _
    exact absurd h1 hc
  · next c0 r0 hne heq =>
    rw [hx] at heq
    injection heq with h1 h2
    subst h1
    subst h2
    rfl

/-- The output of `hyphenSub` has no whitespace adjacent to a hyphen. -/
theorem hyphenSub_no_sp_hy (l : Str) : chainPairs noSpHyPair (hyphenSub l) = true := by
  induction l using hyphenSub.induct with
  | case1 x hx =>
    rw [hyphenSub_eq_nil hx]
    exact chainPairs_of_all_spaces (fun c hc => List.mem_takeWhile_imp hc)
  | case2 x r2 hx ih =>
    rw [hyphenSub_eq_hyphen hx]
    refine chainPairs_cons ih ?_
    intro b hb
    have hbs : isSpaceChar b = false := by
      refine hyphenSub_head_nonspace ?_ b hb
      intro d hd
      exact head_dropWhile_false isSpaceChar r2 d hd
    simp [noSpHyPair, hbs]
    exact Or.inl (by decide)
  | case3 x c r2 hc hx ih =>
    rw [hyphenSub_eq_other hc hx]
    have hcs : isSpaceChar c = false := head_dropWhile_false isSpaceChar x c (by rw [hx]; simp)
    have hch : (c = '-') = False := by
      simp only [eq_iff_iff, iff_false]
      exact hc
    refine chainPairs_append
      (chainPairs_of_all_spaces (fun d hd => List.mem_takeWhile_imp hd))
      (chainPairs_cons ih ?_) ?_
    · intro b hb
      simp [noSpHyPair, hcs, hch]
    · intro a b ha hb
      simp only [List.head?_cons, Option.some.injEq] at hb
      subst hb
      have has : isSpaceChar a = true := List.mem_takeWhile_imp (List.mem_of_mem_getLast? ha)
      have ha' : (a = '-') = False := by
        simp only [eq_iff_iff, iff_false]
        intro hh
        subst hh
        simp [isSpaceChar] at has
      simp [noSpHyPair, ha', hch]
/-- Characters of `hyphenSub`'s output come from the input, except hyphens. -/
theorem mem_hyphenSub {l : Str} {c : Char} (h : c ∈ hyphenSub l) : c ∈ l ∨ c = '-' := by
  induction l using hyphenSub.induct with
  | case1 x hx =>
    rw [hyphenSub_eq_nil hx] at h
    exact Or.inl (List.takeWhile_sublist isSpaceChar |>.mem h)
  | case2 x r2 hx ih =>
    rw [hyphenSub_eq_hyphen hx] at h
    have hxeq : x = x.takeWhile isSpaceChar ++ '-' :: r2 := by
      conv_lhs => rw [← List.takeWhile_append_dropWhile (p := isSpaceChar) (l := x)]
      rw [hx]
    rcases List.mem_cons.mp h with hcl | hrec
    · exact Or.inr hcl
    · rcases ih hrec with hin | hhy
      · refine Or.inl ?_
        rw [hxeq]
        have : c ∈ r2 := (List.dropWhile_sublist isSpaceChar).mem hin
        simp [this]
      · exact Or.inr hhy
  | case3 x c0 r2 hc0 hx ih =>
    rw [hyphenSub_eq_other hc0 hx] at h
    have hxeq : x = x.takeWhile isSpaceChar ++ c0 :: r2 := by
      conv_lhs => rw [← List.takeWhile_append_dropWhile (p := isSpaceChar) (l := x)]
      rw [hx]
    rcases List.mem_append.mp h with htw | hcr
    · exact Or.inl ((List.takeWhile_sublist isSpaceChar).mem htw)
    · rcases List.mem_cons.mp hcr with hcc | hrec
      · refine Or.inl ?_
        rw [hxeq]
        simp [hcc]
      · rcases ih hrec with hin | hhy
        · refine Or.inl ?_
          rw [hxeq]
          simp [hin]
        · exact Or.inr hhy

/-- In a chain, the last element of a prefix and the following element form a
valid pair. -/
theorem chainPairs_last_pair {p : Char → Char → Bool} {xs : Str} {y : Char} {ys : Str}
    (h : chainPairs p (xs ++ y :: ys) = true) :
    ∀ a, xs.getLast? = some a → p a y = true := by
  induction xs with
  | nil => intro a ha; simp at ha
  | cons b xs' ih =>
    intro a ha
    cases xs' with
    | nil =>
      simp at ha
      subst ha
      exact chainPairs_head (by simpa using h) y (by simp)
    | cons b' xs'' =>
      rw [List.getLast?_cons_cons] at ha
      exact ih (chainPairs_tail (by simpa using h)) a ha

/-- `hyphenSub` is the identity on strings with no whitespace adjacent to a
hyphen. -/
theorem hyphenSub_id {l : Str} (h : chainPairs noSpHyPair l = true) : hyphenSub l = l := by
  induction l using hyphenSub.induct with
  | case1 x hx =>
    rw [hyphenSub_eq_nil hx]
    conv_rhs => rw [← List.takeWhile_append_dropWhile (p := isSpaceChar) (l := x), hx]
    simp
  | case2 x r2 hx ih =>
    have hxeq : x = x.takeWhile isSpaceChar ++ '-' :: r2 := by
      conv_lhs => rw [← List.takeWhile_append_dropWhile (p := isSpaceChar) (l := x)]
      rw [hx]
    -- the leading whitespace run must be empty
    have htw : x.takeWhile isSpaceChar = [] := by
      by_contra hne
      obtain ⟨a, ha⟩ := List.getLast?_isSome.mpr hne |> Option.isSome_iff_exists.mp
      have hpair : noSpHyPair a '-' = true := by
        have hh : chainPairs noSpHyPair (x.takeWhile isSpaceChar ++ '-' :: r2) = true := by
          rw [← hxeq]
          exact h
        exact chainPairs_last_pair hh a ha
      have has : isSpaceChar a = true :=
        List.mem_takeWhile_imp (List.mem_of_mem_getLast? ha)
      simp [noSpHyPair, has] at hpair
    rw [htw] at hxeq
    simp at hxeq
    -- after the hyphen no whitespace can follow
    have hr2 : r2.dropWhile isSpaceChar = r2 := by
      cases r2 with
      | nil => rfl
      | cons b t =>
        have hpair : noSpHyPair '-' b = true := by
          rw [hxeq] at h
          exact chainPairs_head h b (by simp)
        have hbs : isSpaceChar b = false := by
          by_contra hbs'
          simp only [Bool.not_eq_false] at hbs'
          simp [noSpHyPair, hbs'] at hpair
        simp [List.dropWhile_cons, hbs]
    rw [hyphenSub_eq_hyphen hx, hxeq, hr2]
    have hchain : chainPairs noSpHyPair r2 = true := by
      rw [hxeq] at h
      exact chainPairs_tail h
    rw [hr2] at ih
    rw [ih (hr2 ▸ hchain)]
  | case3 x c r2 hc hx ih =>
    have hxeq : x = x.takeWhile isSpaceChar ++ c :: r2 := by
      conv_lhs => rw [← List.takeWhile_append_dropWhile (p := isSpaceChar) (l := x)]
      rw [hx]
    rw [hyphenSub_eq_other hc hx]
    have hchain : chainPairs noSpHyPair r2 = true := by
      rw [hxeq] at h
      exact chainPairs_tail (chainPairs_append_right h)
    rw [ih hchain, ← hxeq]
/-- The head of `wsCollapse`'s output is the head of the input, with a
whitespace head turned into a plain space. -/
theorem wsCollapse_head? (z : Str) :
    (wsCollapse z).head? = z.head?.map (fun d => if isSpaceChar d then ' ' else d) := by
  cases z with
  | nil => rw [wsCollapse]; rfl
  | cons d t =>
    by_cases hd : isSpaceChar d
    · rw [wsCollapse, if_pos hd]
      simp [hd]
    · rw [wsCollapse, if_neg hd]
      simp [hd]

/-- Characters of `wsCollapse`'s output come from the input, except spaces. -/
theorem mem_wsCollapse {l : Str} {c : Char} (h : c ∈ wsCollapse l) : c ∈ l ∨ c = ' ' := by
  induction l using wsCollapse.induct with
  | case1 => rw [wsCollapse] at h; simp at h
  | case2 d rest hd ih =>
    rw [wsCollapse, if_pos hd] at h
    rcases List.mem_cons.mp h with hc | hrec
    · exact Or.inr hc
    · rcases ih hrec with hin | hsp
      · exact Or.inl (List.mem_cons_of_mem d ((List.dropWhile_sublist isSpaceChar).mem hin))
      · exact Or.inr hsp
  | case3 d rest hd ih =>
    rw [wsCollapse, if_neg hd] at h
    rcases List.mem_cons.mp h with hc | hrec
    · exact Or.inl (by simp [hc])
    · rcases ih hrec with hin | hsp
      · exact Or.inl (List.mem_cons_of_mem d hin)
      · exact Or.inr hsp

/-- After a whitespace run in a string with no whitespace-hyphen adjacency,
the next character is not a hyphen. -/
theorem after_space_run_not_hyphen {c : Char} {rest : Str}
    (h : chainPairs noSpHyPair (c :: rest) = true) (hc : isSpaceChar c = true) :
    ∀ d, (rest.dropWhile isSpaceChar).head? = some d → (d = '-') = False := by
  induction rest generalizing c with
  | nil => intro d hd; simp at hd
  | cons b t ih =>
    intro d hd
    by_cases hb : isSpaceChar b
    · rw [List.dropWhile_cons, if_pos hb] at hd
      exact ih (chainPairs_tail h) hb d hd
    · rw [List.dropWhile_cons, if_neg hb] at hd
      have hbd : b = d := by simpa using hd
      have hpair : noSpHyPair c b = true := chainPairs_head h b (by simp)
      simp only [eq_iff_iff, iff_false]
      intro hh
      rw [← hbd] at hh
      subst hh
      simp [noSpHyPair, hc] at hpair

/-- The output of `wsCollapse` on a string with no whitespace-hyphen
adjacency satisfies all the pair conditions of cleaned text, and all its
whitespace is plain spaces. -/
theorem wsCollapse_props {l : Str} (h : chainPairs noSpHyPair l = true) :
    chainPairs cleanPair (wsCollapse l) = true ∧ spacesPlain (wsCollapse l) = true := by
  induction l using wsCollapse.induct with
  | case1 =>
    rw [wsCollapse]
    exact ⟨rfl, rfl⟩
  | case2 c rest hc ih =>
    have hrest : chainPairs noSpHyPair (rest.dropWhile isSpaceChar) = true := by
      have h1 : chainPairs noSpHyPair rest = true := chainPairs_tail h
      have h2 : rest = rest.takeWhile isSpaceChar ++ rest.dropWhile isSpaceChar :=
        (List.takeWhile_append_dropWhile ..).symm
      exact chainPairs_append_right (h2 ▸ h1)
    obtain ⟨ihc, ihp⟩ := ih hrest
    rw [wsCollapse, if_pos hc]
    constructor
    · refine chainPairs_cons ihc ?_
      intro b hb
      rw [wsCollapse_head?] at hb
      cases hz : (rest.dropWhile isSpaceChar).head? with
      | none => rw [hz] at hb; simp at hb
      | some d =>
        rw [hz] at hb
        have hds : isSpaceChar d = false := head_dropWhile_false isSpaceChar rest d hz
        simp only [Option.map_some', Option.some.injEq] at hb
        rw [if_neg (by simp [hds])] at hb
        subst hb
        have hdh : (d = '-') = False := after_space_run_not_hyphen h hc d hz
        have hg1 : isSpaceChar ' ' = true := by decide
        have hg2 : ((' ' : Char) = '-') = False := by decide
        simp [cleanPair, noSpHyPair, hds, hdh, hg1, hg2]
    · simp only [spacesPlain, List.all_cons]
      refine Bool.and_eq_true_iff.mpr ⟨by simp, ihp⟩
  | case3 c rest hc ih =>
    have hc' : isSpaceChar c = false := by simpa using hc
    obtain ⟨ihc, ihp⟩ := ih (chainPairs_tail h)
    rw [wsCollapse, if_neg hc]
    constructor
    · refine chainPairs_cons ihc ?_
      intro b hb
      rw [wsCollapse_head?] at hb
      cases hz : rest.head? with
      | none => rw [hz] at hb; simp at hb
      | some d =>
        rw [hz] at hb
        simp only [Option.map_some', Option.some.injEq] at hb
        have hpair : noSpHyPair c d = true := chainPairs_head h d hz
        by_cases hd : isSpaceChar d
        · rw [if_pos hd] at hb
          subst hb
          have hch : (c = '-') = False := by
            simp only [eq_iff_iff, iff_false]
            intro hh
            subst hh
            simp [noSpHyPair, hd] at hpair
          have hg1 : isSpaceChar ' ' = true := by decide
          have hg2 : ((' ' : Char) = '-') = False := by decide
          simp [cleanPair, noSpHyPair, hc', hch, hg1, hg2]
        · rw [if_neg hd] at hb
          subst hb
          have hds : isSpaceChar d = false := by simpa using hd
          simp [cleanPair, noSpHyPair, hc', hds]
    · simp only [spacesPlain, List.all_cons]
      refine Bool.and_eq_true_iff.mpr ⟨by simp [hc'], ihp⟩

/-- `wsCollapse` is the identity on strings whose whitespace is plain,
isolated spaces. -/
theorem wsCollapse_id {l : Str} (hp : spacesPlain l = true)
    (hc : chainPairs cleanPair l = true) : wsCollapse l = l := by
  induction l using wsCollapse.induct with
  | case1 => rw [wsCollapse]
  | case2 c rest hcsp ih =>
    have hcps : c = ' ' := by
      have := (List.all_eq_true.mp hp) c (by simp)
      simp [hcsp] at this
      exact this
    have hrest : rest.dropWhile isSpaceChar = rest := by
      cases rest with
      | nil => rfl
      | cons b t =>
        have hpair : cleanPair c b = true := chainPairs_head hc b (by simp)
        have hbs : isSpaceChar b = false := by
          by_contra hbs'
          simp only [Bool.not_eq_false] at hbs'
          simp [cleanPair, hcsp, hbs'] at hpair
        simp [List.dropWhile_cons, hbs]
    have hp' : spacesPlain rest = true := by
      simp only [spacesPlain, List.all_cons] at hp
      exact (Bool.and_eq_true_iff.mp hp).2
    have hc2 : chainPairs cleanPair rest = true := chainPairs_tail hc
    rw [wsCollapse, if_pos hcsp, hrest, hcps]
    rw [hrest] at ih
    rw [ih hp' hc2]
  | case3 c rest hcsp ih =>
    have hp' : spacesPlain rest = true := by
      simp only [spacesPlain, List.all_cons] at hp
      exact (Bool.and_eq_true_iff.mp hp).2
    rw [wsCollapse, if_neg hcsp]
    rw [ih hp' (chainPairs_tail hc)]
/-- `stripEnds` splits the de-prefixed string into the stripped core and a
trailing whitespace run. -/
theorem stripEnds_decomp (l : Str) :
    l.dropWhile isSpaceChar =
      stripEnds l ++ ((l.dropWhile isSpaceChar).reverse.takeWhile isSpaceChar).reverse := by
  unfold stripEnds
  conv_lhs => rw [← List.reverse_reverse (l.dropWhile isSpaceChar)]
  conv_lhs =>
    rw [← List.takeWhile_append_dropWhile (p := isSpaceChar)
      (l := (l.dropWhile isSpaceChar).reverse)]
  rw [List.reverse_append]

theorem mem_stripEnds {l : Str} {c : Char} (h : c ∈ stripEnds l) : c ∈ l := by
  have hm : c ∈ l.dropWhile isSpaceChar := by
    rw [stripEnds_decomp l]
    exact List.mem_append_left _ h
  exact (List.dropWhile_sublist isSpaceChar).mem hm

theorem stripEnds_chain {p : Char → Char → Bool} {l : Str}
    (h : chainPairs p l = true) : chainPairs p (stripEnds l) = true := by
  have hm : chainPairs p (l.dropWhile isSpaceChar) = true := by
    have h2 : l = l.takeWhile isSpaceChar ++ l.dropWhile isSpaceChar :=
      (List.takeWhile_append_dropWhile ..).symm
    exact chainPairs_append_right (h2 ▸ h)
  rw [stripEnds_decomp l] at hm
  exact chainPairs_append_left hm

theorem stripEnds_plain {l : Str} (h : spacesPlain l = true) :
    spacesPlain (stripEnds l) = true := by
  simp only [spacesPlain, List.all_eq_true] at h ⊢
  exact fun c hc => h c (mem_stripEnds hc)

theorem stripEnds_noEdge (l : Str) : noEdgeSpace (stripEnds l) = true := by
  unfold noEdgeSpace
  refine Bool.and_eq_true_iff.mpr ⟨?_, ?_⟩
  · split
    · next c hc =>
      have hm : (l.dropWhile isSpaceChar).head? = some c := by
        rw [stripEnds_decomp l, List.head?_append, hc]
        rfl
      simpa using head_dropWhile_false isSpaceChar l c hm
    · rfl
  · split
    · next c hc =>
      rw [← List.head?_reverse] at hc
      have hrev : (stripEnds l).reverse = (l.dropWhile isSpaceChar).reverse.dropWhile isSpaceChar := by
        unfold stripEnds
        rw [List.reverse_reverse]
      rw [hrev] at hc
      simpa using head_dropWhile_false isSpaceChar (l.dropWhile isSpaceChar).reverse c hc
    · rfl

theorem stripEnds_id {l : Str} (h : noEdgeSpace l = true) : stripEnds l = l := by
  unfold noEdgeSpace at h
  obtain ⟨hh, hl⟩ := Bool.and_eq_true_iff.mp h
  have h1 : l.dropWhile isSpaceChar = l := by
    cases hc : l with
    | nil => rfl
    | cons a t =>
      rw [hc] at hh
      simp only [List.head?_cons] at hh
      simp [List.dropWhile_cons, (by simpa using hh : isSpaceChar a = false)]
  have h2 : l.reverse.dropWhile isSpaceChar = l.reverse := by
    cases hc : l.reverse with
    | nil => rfl
    | cons a t =>
      have hga : l.getLast? = some a := by
        rw [← List.head?_reverse, hc]
        rfl
      rw [hga] at hl
      simp [List.dropWhile_cons, (by simpa using hl : isSpaceChar a = false)]
  unfold stripEnds
  rw [h1, h2, List.reverse_reverse]
/-- C6: `clean_text` is idempotent — re-cleaning already-cleaned text yields
the same text.  The cleaned text contains none of the replaced special
characters, its whitespace is plain isolated spaces not adjacent to hyphens,
and it has no leading or trailing whitespace; each stage of the pipeline is
the identity on such text. -/
theorem C6_clean_text_idempotent (x : Str) : clean_text (clean_text x) = clean_text x := by
  have hW := wsCollapse_props (hyphenSub_no_sp_hy (cleanSpecials x))
  have hchainY : chainPairs cleanPair (clean_text x) = true := by
    unfold clean_text
    exact stripEnds_chain hW.1
  have hplainY : spacesPlain (clean_text x) = true := by
    unfold clean_text
    exact stripEnds_plain hW.2
  have hedgeY : noEdgeSpace (clean_text x) = true := by
    unfold clean_text
    exact stripEnds_noEdge _
  have hnb : ∀ c ∈ clean_text x, badChar c = false := by
    intro c hc
    unfold clean_text at hc
    have hc1 := mem_stripEnds hc
    rcases mem_wsCollapse hc1 with hc2 | hsp
    · rcases mem_hyphenSub hc2 with hc3 | hhy
      · exact cleanSpecials_no_bad x c hc3
      · subst hhy; decide
    · subst hsp; decide
  have hmono : ∀ a b, cleanPair a b = true → noSpHyPair a b = true := by
    intro a b hab
    unfold cleanPair at hab
    exact (Bool.and_eq_true_iff.mp hab).2
  show stripEnds (wsCollapse (hyphenSub (cleanSpecials (clean_text x)))) = clean_text x
  rw [cleanSpecials_id hnb]
  rw [hyphenSub_id (chainPairs_mono hmono hchainY)]
  rw [wsCollapse_id hplainY hchainY]
  rw [stripEnds_id hedgeY]
/-! Lemmas toward C9: every produced span lies inside the text. -/

theorem ciStartsWith_length {p r : Str} (h : ciStartsWith p r = true) : p.length ≤ r.length := by
  induction p generalizing r with
  | nil => simp
  | cons a ps ih =>
    cases r with
    | nil => simp [ciStartsWith] at h
    | cons b rs =>
      unfold ciStartsWith at h
      have := ih (Bool.and_eq_true_iff.mp h).2
      simpa using this

theorem trySuffixBoundary_le {allow : Bool} {rest : Str} {L : Nat}
    (h : trySuffixBoundary allow rest = some L) : L ≤ rest.length := by
  unfold trySuffixBoundary at h
  split at h
  · split at h
    · next suf hf =>
      have hp := List.find?_some hf
      injection h with hL
      subst hL
      exact ciStartsWith_length (Bool.and_eq_true_iff.mp hp).1
    · split at h
      · injection h with hL
        omega
      · exact absurd h (by simp)
  · split at h
    · injection h with hL
      omega
    · exact absurd h (by simp)

theorem matchWordsV2_le {ws : List Str} {rest : Str} {L : Nat}
    (h : matchWordsV2 ws rest = some L) : L ≤ rest.length := by
  induction ws generalizing rest L with
  | nil =>
    unfold matchWordsV2 at h
    injection h with hL
    omega
  | cons w ws' ih =>
    cases ws' with
    | nil =>
      unfold matchWordsV2 at h
      split at h
      · next hci =>
        injection h with hL
        subst hL
        exact ciStartsWith_length hci
      · exact absurd h (by simp)
    | cons w2 ws'' =>
      unfold matchWordsV2 at h
      split at h
      · next hci =>
        dsimp only at h
        split at h
        · exact absurd h (by simp)
        · next hsp =>
          cases hrec : matchWordsV2 (w2 :: ws'')
              ((rest.drop w.length).drop
                ((rest.drop w.length).takeWhile isSpaceChar).length) with
          | none => rw [hrec] at h; simp at h
          | some L' =>
            rw [hrec] at h
            simp only [Option.map_some', Option.some.injEq] at h
            have h1 : w.length ≤ rest.length := ciStartsWith_length hci
            have h2 := ih hrec
            have h5 : ((rest.drop w.length).drop
                ((rest.drop w.length).takeWhile isSpaceChar).length).length =
                (rest.drop w.length).length -
                  ((rest.drop w.length).takeWhile isSpaceChar).length :=
              List.length_drop ..
            have h6 : (rest.drop w.length).length = rest.length - w.length :=
              List.length_drop ..
            have h7 : ((rest.drop w.length).takeWhile isSpaceChar).length ≤
                (rest.drop w.length).length :=
              (List.takeWhile_sublist isSpaceChar).length_le
            omega
      · exact absurd h (by simp)
theorem matchAtV2_le {pat : PatternV2} {text : Str} {i L : Nat}
    (h : matchAtV2 pat text i = some L) : L ≤ text.length - i := by
  unfold matchAtV2 at h
  split at h
  · cases hw : matchWordsV2 pat.lemmaWords (text.drop i) with
    | none => rw [hw] at h; simp at h
    | some L1 =>
      rw [hw] at h
      dsimp only at h
      cases hs : trySuffixBoundary pat.allowSuffix ((text.drop i).drop L1) with
      | none => rw [hs] at h; simp at h
      | some L2 =>
        rw [hs] at h
        simp only [Option.map_some', Option.some.injEq] at h
        have h1 := matchWordsV2_le hw
        have h2 := trySuffixBoundary_le hs
        have h3 : ((text.drop i).drop L1).length = (text.drop i).length - L1 :=
          List.length_drop ..
        have h4 : (text.drop i).length = text.length - i := List.length_drop ..
        omega
  · exact absurd h (by simp)

theorem tryAltCopy_le {allow : Bool} {alt rest : Str} {L : Nat}
    (h : tryAltCopy allow alt rest = some L) : L ≤ rest.length := by
  unfold tryAltCopy at h
  split at h
  · next hci =>
    cases hs : trySuffixBoundary allow (rest.drop alt.length) with
    | none => rw [hs] at h; simp at h
    | some L2 =>
      rw [hs] at h
      simp only [Option.map_some', Option.some.injEq] at h
      have h1 := ciStartsWith_length hci
      have h2 := trySuffixBoundary_le hs
      have h3 : (rest.drop alt.length).length = rest.length - alt.length := List.length_drop ..
      omega
  · exact absurd h (by simp)

theorem matchAtCopy_le {pat : PatternCopy} {text : Str} {i L : Nat}
    (h : matchAtCopy pat text i = some L) : L ≤ text.length - i := by
  unfold matchAtCopy at h
  split at h
  · have h4 : (text.drop i).length = text.length - i := List.length_drop ..
    split at h
    · next L1 hb =>
      injection h with hL
      subst hL
      have := tryAltCopy_le hb
      omega
    · have := tryAltCopy_le h
      omega
  · exact absurd h (by simp)

/-- Every span yielded by `finditerAux` starts at a scanned position and has
a match of the right length there. -/
theorem finditerAux_mem {mAt : Nat → Option Nat} {n : Nat} :
    ∀ {fuel i s e}, (s, e) ∈ finditerAux mAt n fuel i →
      ∃ L, mAt s = some L ∧ e = s + L ∧ s ≤ n := by
  intro fuel
  induction fuel with
  | zero => intro i s e h; simp [finditerAux] at h
  | succ fuel ih =>
    intro i s e h
    unfold finditerAux at h
    split at h
    · next hin =>
      cases hm : mAt i with
      | none =>
        rw [hm] at h
        exact ih h
      | some L =>
        rw [hm] at h
        rcases List.mem_cons.mp h with hc | hrec
        · obtain ⟨hs, he⟩ := Prod.mk.injEq .. ▸ hc
          subst hs
          subst he
          exact ⟨L, hm, rfl, hin⟩
        · exact ih hrec
    · simp at h
/-- Spans accepted by the v2 exact pass come from the match list. -/
theorem exactPassV2_sub {text term : Str} {ms : List (Nat × Nat)} {used : List (Int × Int)}
    {s e : Nat} (h : (s, e) ∈ (exactPassV2 text term ms used).1) : (s, e) ∈ ms := by
  induction ms generalizing used with
  | nil => simp [exactPassV2] at h
  | cons se rest ih =>
    obtain ⟨s0, e0⟩ := se
    unfold exactPassV2 at h
    split at h
    · exact List.mem_cons_of_mem _ (ih h)
    · split at h
      · rcases List.mem_cons.mp h with hc | hrec
        · exact List.mem_cons.mpr (Or.inl hc)
        · exact List.mem_cons_of_mem _ (ih hrec)
      · exact List.mem_cons_of_mem _ (ih h)

/-- Spans accepted by the copy's exact pass come from the match list. -/
theorem exactPassCopy_sub {text term : Str} {ms : List (Nat × Nat)} {used : List (Int × Int)}
    {s e : Nat} (h : (s, e) ∈ (exactPassCopy text term ms used).1) : (s, e) ∈ ms := by
  induction ms generalizing used with
  | nil => simp [exactPassCopy] at h
  | cons se rest ih =>
    obtain ⟨s0, e0⟩ := se
    unfold exactPassCopy at h
    split at h
    · exact List.mem_cons_of_mem _ (ih h)
    · split at h
      · rcases List.mem_cons.mp h with hc | hrec
        · exact List.mem_cons.mpr (Or.inl hc)
        · exact List.mem_cons_of_mem _ (ih hrec)
      · exact List.mem_cons_of_mem _ (ih h)

/-- Spans accepted by the v2 exact pass have the term's surface, lower-cased. -/
theorem exactPassV2_surface {text term : Str} {ms : List (Nat × Nat)} {used : List (Int × Int)}
    {s e : Nat} (h : (s, e) ∈ (exactPassV2 text term ms used).1) :
    lowerStr (sliceStr text s e) = lowerStr term := by
  induction ms generalizing used with
  | nil => simp [exactPassV2] at h
  | cons se rest ih =>
    obtain ⟨s0, e0⟩ := se
    unfold exactPassV2 at h
    split at h
    · exact ih h
    · split at h
      · next hb =>
        rcases List.mem_cons.mp h with hc | hrec
        · obtain ⟨hs, he⟩ := Prod.mk.injEq .. ▸ hc
          subst hs
          subst he
          simpa using hb
        · exact ih hrec
      · exact ih h

/-- The span a v2 fuzzy pass accepts comes from the word pool, is at least
`MIN_FUZZY_LEN` long, and sits at the word's `find` position. -/
theorem fuzzyPassV2_mem {text target lemmaTarget : Str} {ws : List Str}
    {used : List (Int × Int)} {a b : Int}
    (h : (a, b) ∈ (fuzzyPassV2 text target lemmaTarget ws used).1) :
    ∃ w ∈ ws, 6 ≤ w.length ∧ a = pyFind (lowerStr text) (lowerStr w) ∧
      b = a + (w.length : Int) := by
  induction ws generalizing used with
  | nil => simp [fuzzyPassV2] at h
  | cons w rest ih =>
    unfold fuzzyPassV2 at h
    dsimp only at h
    split at h
    · next hlen =>
      obtain ⟨w', hw', hrest⟩ := ih h
      exact ⟨w', by simp [hw'], hrest⟩
    · next hlen =>
      split at h
      · obtain ⟨w', hw', hrest⟩ := ih h
        exact ⟨w', by simp [hw'], hrest⟩
      · split at h
        · obtain ⟨w', hw', hrest⟩ := ih h
          exact ⟨w', by simp [hw'], hrest⟩
        · split at h
          · simp only [List.mem_singleton] at h
            obtain ⟨ha, hb⟩ := Prod.mk.injEq .. ▸ h
            subst ha
            subst hb
            exact ⟨w, by simp, by omega, rfl, rfl⟩
          · obtain ⟨w', hw', hrest⟩ := ih h
            exact ⟨w', by simp [hw'], hrest⟩

/-- The span the copy's fuzzy pass accepts comes from the word pool and sits
at the word's `find` position. -/
theorem fuzzyPassCopy_mem {text target lemmaTarget : Str} {ws : List Str}
    {used : List (Int × Int)} {a b : Int}
    (h : (a, b) ∈ (fuzzyPassCopy text target lemmaTarget ws used).1) :
    ∃ w ∈ ws, a = pyFind (lowerStr text) (lowerStr w) ∧ b = a + (w.length : Int) := by
  induction ws generalizing used with
  | nil => simp [fuzzyPassCopy] at h
  | cons w rest ih =>
    unfold fuzzyPassCopy at h
    dsimp only at h
    split at h
    · obtain ⟨w', hw', hrest⟩ := ih h
      exact ⟨w', by simp [hw'], hrest⟩
    · split at h
      · obtain ⟨w', hw', hrest⟩ := ih h
        exact ⟨w', by simp [hw'], hrest⟩
      · split at h
        · split at h
          · simp at h
          · split at h
            · obtain ⟨w', hw', hrest⟩ := ih h
              exact ⟨w', by simp [hw'], hrest⟩
            · simp only [List.mem_singleton] at h
              obtain ⟨ha, hb⟩ := Prod.mk.injEq .. ▸ h
              subst ha
              subst hb
              exact ⟨w, by simp, rfl, rfl⟩
        · obtain ⟨w', hw', hrest⟩ := ih h
          exact ⟨w', by simp [hw'], hrest⟩
theorem isPrefixOf_true {p l : Str} (h : p.isPrefixOf l = true) : p <+: l := by
  exact List.isPrefixOf_iff_prefix.mp h

theorem splitRunsAux_substring {cur t : Str} {r : Str} (h : r ∈ splitRunsAux cur t) :
    r <:+: (cur ++ t) := by
  induction t generalizing cur with
  | nil =>
    unfold splitRunsAux at h
    split at h
    · simp at h
    · simp at h
      subst h
      simp
  | cons c t' ih =>
    unfold splitRunsAux at h
    split at h
    · have := ih h
      simpa using this
    · split at h
      · next hcur =>
        have hc0 : cur = [] := by simpa using hcur
        subst hc0
        have := ih h
        simp at this
        simp only [List.nil_append]
        exact this.trans (List.suffix_cons c t').isInfix
      · rcases List.mem_cons.mp h with hc | hrec
        · subst hc
          exact (List.prefix_append r (c :: t')).isInfix
        · have := ih hrec
          simp at this
          exact this.trans
            ((List.suffix_cons c t').trans (List.suffix_append cur (c :: t'))).isInfix
theorem dropTrailing_substring {p : Char → Bool} {l : Str} : dropTrailing p l <:+: l := by
  unfold dropTrailing
  have h1 : l.reverse.dropWhile p <:+ l.reverse := List.dropWhile_suffix p
  obtain ⟨pre, hpre⟩ := h1
  refine ⟨[], pre.reverse, ?_⟩
  simp only [List.nil_append]
  have := congrArg List.reverse hpre
  simpa using this

theorem trimRun_substring {r : Str} : trimRun r <:+: r := by
  unfold trimRun
  exact dropTrailing_substring.trans (List.dropWhile_suffix _).isInfix

theorem findallWords_substring {minLen : Nat} {text : Str} {w : Str}
    (h : w ∈ findallWords minLen text) : w <:+: text ∧ minLen ≤ w.length := by
  unfold findallWords at h
  have hmem := List.mem_of_mem_filter h
  have hpred := List.of_mem_filter h
  simp only [Bool.and_eq_true, decide_eq_true_eq] at hpred
  obtain ⟨run, hrun, hw⟩ := List.mem_map.mp hmem
  have h1 : run <:+: text := by
    have h0 : run <:+: (([] : Str) ++ text) :=
      splitRunsAux_substring (by simpa [splitRuns] using hrun)
    simpa using h0
  subst hw
  exact ⟨trimRun_substring.trans h1, hpred.2⟩

theorem dedupFirst_subset {l seen : List Str} {w : Str} (h : w ∈ dedupFirst l seen) : w ∈ l := by
  induction l generalizing seen with
  | nil => simp [dedupFirst] at h
  | cons x t ih =>
    unfold dedupFirst at h
    split at h
    · exact List.mem_cons_of_mem _ (ih h)
    · rcases List.mem_cons.mp h with hc | hrec
      · simp [hc]
      · exact List.mem_cons_of_mem _ (ih hrec)

/-- `str.find` on a substring succeeds and returns an in-bounds index. -/
theorem pyFind_of_substring {hay pat : Str} (h : pat <:+: hay) :
    ∃ j : Nat, pyFind hay pat = (j : Int) ∧ j + pat.length ≤ hay.length := by
  unfold pyFind
  suffices haux : ∀ (hay : Str) (i0 : Nat), pat <:+: hay →
      ∃ j : Nat, findFrom pat hay i0 = ((i0 + j : Nat) : Int) ∧ j + pat.length ≤ hay.length by
    obtain ⟨j, hj, hb⟩ := haux hay 0 h
    exact ⟨j, by simpa using hj, hb⟩
  intro hay'
  induction hay' with
  | nil =>
    intro i0 hinf
    have hp : pat = [] := by
      obtain ⟨u, v, huv⟩ := hinf
      simpa using List.append_eq_nil.mp (List.append_eq_nil.mp huv).1 |>.2
    subst hp
    refine ⟨0, ?_, by simp⟩
    unfold findFrom
    simp [List.isPrefixOf]
  | cons c t ih =>
    intro i0 hinf
    by_cases hpre : pat.isPrefixOf (c :: t)
    · refine ⟨0, ?_, ?_⟩
      · unfold findFrom
        rw [if_pos hpre]
        simp
      · have := (isPrefixOf_true hpre).length_le
        simpa using this
    · have hinf' : pat <:+: t := by
        rcases List.infix_cons_iff.mp hinf with hp | hs
        · exact absurd (List.isPrefixOf_iff_prefix.mpr hp) hpre
        · exact hs
      obtain ⟨j, hj, hb⟩ := ih (i0 + 1) hinf'
      refine ⟨j + 1, ?_, ?_⟩
      · unfold findFrom
        rw [if_neg hpre]
        rw [hj]
        congr 1
        omega
      · simp
        omega
theorem lowerStr_length (s : Str) : (lowerStr s).length = s.length := by simp [lowerStr]

theorem lowerStr_substring {w text : Str} (h : w <:+: text) : lowerStr w <:+: lowerStr text := by
  obtain ⟨u, v, huv⟩ := h
  refine ⟨lowerStr u, lowerStr v, ?_⟩
  rw [← huv]
  simp [lowerStr]

theorem mem_insertByLen {x y : Str} {l : List Str} (h : y ∈ insertByLen x l) :
    y = x ∨ y ∈ l := by
  induction l with
  | nil => simpa [insertByLen] using h
  | cons z t ih =>
    unfold insertByLen at h
    split at h
    · rcases List.mem_cons.mp h with hc | hrec
      · exact Or.inl hc
      · exact Or.inr hrec
    · rcases List.mem_cons.mp h with hc | hrec
      · exact Or.inr (by simp [hc])
      · rcases ih hrec with hx | hm
        · exact Or.inl hx
        · exact Or.inr (List.mem_cons_of_mem _ hm)

theorem mem_sortByLenDesc {y : Str} {l : List Str} (h : y ∈ sortByLenDesc l) : y ∈ l := by
  induction l with
  | nil => simpa [sortByLenDesc] using h
  | cons x t ih =>
    unfold sortByLenDesc at h
    rcases mem_insertByLen h with hx | hm
    · simp [hx]
    · exact List.mem_cons_of_mem _ (ih hm)

theorem precompiledTermsV2_length {terms : List Str} {t : Str}
    (h : t ∈ precompiledTermsV2 terms) : 2 ≤ t.length := by
  unfold precompiledTermsV2 at h
  have := mem_sortByLenDesc h
  have hp := List.of_mem_filter this
  simpa using hp

/-- Bounds for every span the v2 per-term step appends (with spans of the
incoming state already bounded). -/
theorem processTermV2_inv {text : Str} {wordsU : List Str}
    {st : List LabelSpan × List (Int × Int)} {cat : String} {term : Str}
    (hst : ∀ s e c, (s, e, c) ∈ st.1 → 0 ≤ s ∧ s < e ∧ e ≤ (text.length : Int))
    (hterm : 2 ≤ term.length)
    (hwords : ∀ w ∈ wordsU, w <:+: text) :
    ∀ s e c, (s, e, c) ∈ (processTermV2 text wordsU st cat term).1 →
      0 ≤ s ∧ s < e ∧ e ≤ (text.length : Int) := by
  have hexact : ∀ s0 e0 : Nat,
      (s0, e0) ∈ (exactPassV2 text term (finditerV2 (build_flexible_pattern_v2 term) text) st.2).1 →
      s0 < e0 ∧ e0 ≤ text.length := by
    intro s0 e0 hmem
    have hms := exactPassV2_sub hmem
    obtain ⟨L, hmAt, he0, hs0⟩ := finditerAux_mem hms
    have hL := matchAtV2_le hmAt
    have hsurf := exactPassV2_surface hmem
    have hlen : (sliceStr text s0 e0).length = term.length := by
      have := congrArg List.length hsurf
      simpa [lowerStr_length] using this
    have hslice : (sliceStr text s0 e0).length = min (e0 - s0) (text.length - s0) := by
      unfold sliceStr
      simp [List.length_take, List.length_drop]
    subst he0
    omega
  intro s e c hmem
  unfold processTermV2 at hmem
  dsimp only at hmem
  split at hmem
  · rcases List.mem_append.mp hmem with h1 | hfz
    · rcases List.mem_append.mp h1 with h0 | hex
      · exact hst s e c h0
      · obtain ⟨⟨s0, e0⟩, hse, heq⟩ := List.mem_map.mp hex
        simp only [Prod.mk.injEq] at heq
        obtain ⟨hs, he, hcx⟩ := heq
        have := hexact s0 e0 hse
        subst hs
        subst he
        refine ⟨by positivity, by exact_mod_cast this.1, by exact_mod_cast this.2⟩
    · obtain ⟨⟨a, b⟩, hab, heq⟩ := List.mem_map.mp hfz
      simp only [Prod.mk.injEq] at heq
      obtain ⟨hs, he, hcx⟩ := heq
      subst hs
      subst he
      obtain ⟨w, hw, hw6, ha, hb⟩ := fuzzyPassV2_mem hab
      obtain ⟨j, hj, hjb⟩ := pyFind_of_substring (lowerStr_substring (hwords w hw))
      rw [lowerStr_length, lowerStr_length] at hjb
      rw [hj] at ha
      subst ha
      subst hb
      refine ⟨by positivity, ?_, ?_⟩
      · omega
      · exact_mod_cast (by omega : j + w.length ≤ text.length)
  · rcases List.mem_append.mp hmem with h0 | hex
    · exact hst s e c h0
    · obtain ⟨⟨s0, e0⟩, hse, heq⟩ := List.mem_map.mp hex
      simp only [Prod.mk.injEq] at heq
      obtain ⟨hs, he, hcx⟩ := heq
      have := hexact s0 e0 hse
      subst hs
      subst he
      refine ⟨by positivity, by exact_mod_cast this.1, by exact_mod_cast this.2⟩
/-- Bounds for every span the copy's per-term step appends. -/
theorem processTermCopy_inv {text : Str} {wordsU : List Str}
    {st : List LabelSpan × List (Int × Int)} {cat : String} {term : Str}
    (hst : ∀ s e c, (s, e, c) ∈ st.1 → 0 ≤ s ∧ s ≤ e ∧ e ≤ (text.length : Int))
    (hwords : ∀ w ∈ wordsU, w <:+: text) :
    ∀ s e c, (s, e, c) ∈ (processTermCopy text wordsU st cat term).1 →
      0 ≤ s ∧ s ≤ e ∧ e ≤ (text.length : Int) := by
  have hexact : ∀ s0 e0 : Nat,
      (s0, e0) ∈
        (exactPassCopy text term (finditerCopy (build_flexible_pattern_copy term) text) st.2).1 →
      s0 ≤ e0 ∧ e0 ≤ text.length := by
    intro s0 e0 hmem
    have hms := exactPassCopy_sub hmem
    obtain ⟨L, hmAt, he0, hs0⟩ := finditerAux_mem hms
    have hL := matchAtCopy_le hmAt
    subst he0
    omega
  intro s e c hmem
  unfold processTermCopy at hmem
  dsimp only at hmem
  split at hmem
  · rcases List.mem_append.mp hmem with h1 | hfz
    · rcases List.mem_append.mp h1 with h0 | hex
      · exact hst s e c h0
      · obtain ⟨⟨s0, e0⟩, hse, heq⟩ := List.mem_map.mp hex
        simp only [Prod.mk.injEq] at heq
        obtain ⟨hs, he, hcx⟩ := heq
        have := hexact s0 e0 hse
        subst hs
        subst he
        refine ⟨by positivity, by exact_mod_cast this.1, by exact_mod_cast this.2⟩
    · obtain ⟨⟨a, b⟩, hab, heq⟩ := List.mem_map.mp hfz
      simp only [Prod.mk.injEq] at heq
      obtain ⟨hs, he, hcx⟩ := heq
      subst hs
      subst he
      obtain ⟨w, hw, ha, hb⟩ := fuzzyPassCopy_mem hab
      obtain ⟨j, hj, hjb⟩ := pyFind_of_substring (lowerStr_substring (hwords w hw))
      rw [lowerStr_length, lowerStr_length] at hjb
      rw [hj] at ha
      subst ha
      subst hb
      refine ⟨by positivity, ?_, ?_⟩
      · omega
      · exact_mod_cast (by omega : j + w.length ≤ text.length)
  · rcases List.mem_append.mp hmem with h0 | hex
    · exact hst s e c h0
    · obtain ⟨⟨s0, e0⟩, hse, heq⟩ := List.mem_map.mp hex
      simp only [Prod.mk.injEq] at heq
      obtain ⟨hs, he, hcx⟩ := heq
      have := hexact s0 e0 hse
      subst hs
      subst he
      refine ⟨by positivity, by exact_mod_cast this.1, by exact_mod_cast this.2⟩
theorem foldTermsV2_inv {text : Str} {wordsU : List Str} {cat : String} :
    ∀ (terms : List Str) (st : List LabelSpan × List (Int × Int)),
      (∀ t ∈ terms, 2 ≤ t.length) →
      (∀ w ∈ wordsU, w <:+: text) →
      (∀ s e c, (s, e, c) ∈ st.1 → 0 ≤ s ∧ s < e ∧ e ≤ (text.length : Int)) →
      ∀ s e c,
        (s, e, c) ∈ (terms.foldl (fun st2 term => processTermV2 text wordsU st2 cat term) st).1 →
        0 ≤ s ∧ s < e ∧ e ≤ (text.length : Int) := by
  intro terms
  induction terms with
  | nil => intro st h1 h2 h3; simpa using h3
  | cons t ts ih =>
    intro st h1 h2 h3
    simp only [List.foldl_cons]
    exact ih _ (fun t' ht' => h1 t' (List.mem_cons_of_mem _ ht')) h2
      (processTermV2_inv h3 (h1 t (by simp)) h2)

theorem foldTermsCopy_inv {text : Str} {wordsU : List Str} {cat : String} :
    ∀ (terms : List Str) (st : List LabelSpan × List (Int × Int)),
      (∀ w ∈ wordsU, w <:+: text) →
      (∀ s e c, (s, e, c) ∈ st.1 → 0 ≤ s ∧ s ≤ e ∧ e ≤ (text.length : Int)) →
      ∀ s e c,
        (s, e, c) ∈ (terms.foldl (fun st2 term => processTermCopy text wordsU st2 cat term) st).1 →
        0 ≤ s ∧ s ≤ e ∧ e ≤ (text.length : Int) := by
  intro terms
  induction terms with
  | nil => intro st h2 h3; simpa using h3
  | cons t ts ih =>
    intro st h2 h3
    simp only [List.foldl_cons]
    exact ih _ h2 (processTermCopy_inv h3 h2)

/-- C9: `annotate_text` is a total function of the text and the dictionary
(every definition in this development is total), and every span it emits is
a well-formed `[start, end, category]` triple inside the text: for
`annotate_doccano_v2.py`, `0 ≤ start < end ≤ len(text)`; for the copy,
`0 ≤ start ≤ end ≤ len(text)`.  Moreover too-short terms are silently
skipped: dictionary terms below `MIN_TERM_LEN = 2` never affect the v2
output. -/
theorem C9_annotate_text_total_and_in_bounds :
    (∀ cats text s e c, (s, e, c) ∈ annotate_text_v2 cats text →
      0 ≤ s ∧ s < e ∧ e ≤ (text.length : Int)) ∧
    (∀ cats text s e c, (s, e, c) ∈ annotate_text_copy cats text →
      0 ≤ s ∧ s ≤ e ∧ e ≤ (text.length : Int)) ∧
    (∀ cats text,
      annotate_text_v2
        (cats.map (fun ct => (ct.1, ct.2.filter (fun t => decide (2 ≤ t.length))))) text =
      annotate_text_v2 cats text) := by
  refine ⟨?_, ?_, ?_⟩
  · intro cats text
    have hwords : ∀ w ∈ dedupFirst (findallWords 1 text) [], w <:+: text :=
      fun w hw => (findallWords_substring (dedupFirst_subset hw)).1
    unfold annotate_text_v2
    dsimp only
    suffices hgen : ∀ (cs : List (String × List Str)) (st : List LabelSpan × List (Int × Int)),
        (∀ s e c, (s, e, c) ∈ st.1 → 0 ≤ s ∧ s < e ∧ e ≤ (text.length : Int)) →
        ∀ s e c, (s, e, c) ∈ (cs.foldl
          (fun st ct => (precompiledTermsV2 ct.2).foldl
            (fun st2 term =>
              processTermV2 text (dedupFirst (findallWords 1 text) []) st2 ct.1 term) st)
          st).1 →
          0 ≤ s ∧ s < e ∧ e ≤ (text.length : Int) by
      intro s e c hmem
      exact hgen cats ([], []) (by simp) s e c hmem
    intro cs
    induction cs with
    | nil => intro st h3; simpa using h3
    | cons ct cs' ih =>
      intro st h3
      simp only [List.foldl_cons]
      exact ih _ (foldTermsV2_inv (precompiledTermsV2 ct.2) st
        (fun t ht => precompiledTermsV2_length ht) hwords h3)
  · intro cats text
    have hwords : ∀ w ∈ dedupFirst (findallWords 3 text) [], w <:+: text :=
      fun w hw => (findallWords_substring (dedupFirst_subset hw)).1
    unfold annotate_text_copy
    dsimp only
    suffices hgen : ∀ (cs : List (String × List Str)) (st : List LabelSpan × List (Int × Int)),
        (∀ s e c, (s, e, c) ∈ st.1 → 0 ≤ s ∧ s ≤ e ∧ e ≤ (text.length : Int)) →
        ∀ s e c, (s, e, c) ∈ (cs.foldl
          (fun st ct => (precompiledTermsCopy ct.2).foldl
            (fun st2 term =>
              processTermCopy text (dedupFirst (findallWords 3 text) []) st2 ct.1 term) st)
          st).1 →
          0 ≤ s ∧ s ≤ e ∧ e ≤ (text.length : Int) by
      intro s e c hmem
      exact hgen cats ([], []) (by simp) s e c hmem
    intro cs
    induction cs with
    | nil => intro st h3; simpa using h3
    | cons ct cs' ih =>
      intro st h3
      simp only [List.foldl_cons]
      exact ih _ (foldTermsCopy_inv (precompiledTermsCopy ct.2) st hwords h3)
  · intro cats text
    have hpre : ∀ ts : List Str,
        precompiledTermsV2 (ts.filter (fun t => decide (2 ≤ t.length))) =
        precompiledTermsV2 ts := by
      intro ts
      unfold precompiledTermsV2
      congr 1
      rw [List.filter_filter]
      simp
    unfold annotate_text_v2
    dsimp only
    congr 1
    suffices hf : ∀ (cs : List (String × List Str)) (st : List LabelSpan × List (Int × Int)),
        ((cs.map (fun ct => (ct.1, ct.2.filter (fun t => decide (2 ≤ t.length))))).foldl
          (fun st ct => (precompiledTermsV2 ct.2).foldl
            (fun st2 term =>
              processTermV2 text (dedupFirst (findallWords 1 text) []) st2 ct.1 term) st)
          st) =
        (cs.foldl
          (fun st ct => (precompiledTermsV2 ct.2).foldl
            (fun st2 term =>
              processTermV2 text (dedupFirst (findallWords 1 text) []) st2 ct.1 term) st)
          st) by
      exact hf cats ([], [])
    intro cs
    induction cs with
    | nil => intro st; rfl
    | cons ct cs' ih =>
      intro st
      simp only [List.map_cons, List.foldl_cons]
      rw [hpre]
      exact ih _
/-- Witness for C9 at concrete runs of both files. -/
theorem C9_witness :
    ((18 : Int), (26 : Int), "Symptom") ∈ annotate_text_v2 exFatigueCats exFatigueText ∧
    (0 ≤ (18 : Int) ∧ (18 : Int) < 26 ∧ (26 : Int) ≤ (exFatigueText.length : Int)) ∧
    ((9 : Int), (14 : Int), "Process") ∈ annotate_text_copy exNoteCats exClinicalText ∧
    (0 ≤ (9 : Int) ∧ (9 : Int) ≤ 14 ∧ (14 : Int) ≤ (exClinicalText.length : Int)) :=
  ⟨by decide,
   C9_annotate_text_total_and_in_bounds.1 exFatigueCats exFatigueText 18 26 "Symptom" (by decide),
   by decide,
   C9_annotate_text_total_and_in_bounds.2.1 exNoteCats exClinicalText 9 14 "Process" (by decide)⟩
